import Mathlib

/-!
# local-http-inspector: packet store and stream framer

A shallow embedding of `store.go` (the bounded packet store with request/response
pairing) and of the classification / read loop of `stream.go`.

Modelling conventions.

* Go `int` is modelled by `Int`; lengths are cast into `Int` where the source compares
  them with `maxSize`.  The counters `nextID` / `nextPair` are not wrapped at `2^63`:
  they grow by one per `Add`, so wrapping needs more `Add` calls than a process performs.
* `time.Time` is an abstract `Int`; `map[string]string` headers are an association list.
* `*PacketPair` is an address into an explicit heap (`PacketStore.heap`), so that the
  aliasing between the pairing map and the pair list is kept: both hold addresses.
  `*CapturedPacket` legs point at the per-call copy `p`, which nobody mutates after
  `Add` returns, so a leg is modelled by `Option CapturedPacket`.
* The Go map `pairs` is an association list read through `mapGet`.
* A Go run-time panic (slice bounds out of range) is `none`.
* The mutex is not modelled: every operation is a function on the whole state, which
  is what holding the lock for the whole call means.
-/

namespace HttpInspector

/-! ## store.go -/

/-- PacketType indicates whether this is a request or response. -/
abbrev PacketType := String

def PacketRequest : PacketType := "request"

def PacketResponse : PacketType := "response"

/-- CapturedPacket represents a captured HTTP request or response. -/
structure CapturedPacket where
  ID : Int
  Typ : PacketType
  Timestamp : Int
  Method : String
  URL : String
  Host : String
  Status : String
  StatusCode : Int
  ContentType : String
  BodySize : Int
  Body : String
  Headers : List (String × String)
  Protocol : String
  Connection : String
  PairKey : String
  deriving DecidableEq, Repr, Inhabited

/-- PacketPair represents a correlated request/response pair. -/
structure PacketPair where
  ID : Int
  Timestamp : Int
  Request : Option CapturedPacket
  Response : Option CapturedPacket
  deriving DecidableEq, Repr, Inhabited

/-- Addresses of heap-allocated `PacketPair` values. -/
abbrev Addr := Nat

/-- PacketStore holds captured packets in memory.  `heap` holds every `PacketPair`
ever allocated by `Add` (address = position); the other fields are the Go fields. -/
structure PacketStore where
  heap : List PacketPair
  packets : List CapturedPacket
  pairs : List (String × Addr)
  pairList : List Addr
  maxSize : Int
  nextID : Int
  nextPair : Int
  deriving DecidableEq, Repr

/-- Pointer dereference `*a`. -/
def deref (heap : List PacketPair) (a : Addr) : PacketPair :=
  heap.getD a default

/-- Map read `v, exists := m[k]`. -/
def mapGet : List (String × Addr) → String → Option Addr
  | [], _ => none
  | (k', v) :: rest, k => if k' = k then some v else mapGet rest k

/-- Map removal `delete(m, k)`. -/
def mapDelete (m : List (String × Addr)) (k : String) : List (String × Addr) :=
  m.filter (fun e => decide (e.1 ≠ k))

/-- Map write `m[k] = v`. -/
def mapSet (m : List (String × Addr)) (k : String) (v : Addr) : List (String × Addr) :=
  (k, v) :: mapDelete m k

/-- Number of entries `len(m)`. -/
def mapLen (m : List (String × Addr)) : Nat :=
  (m.map Prod.fst).dedup.length

/-- Go slice expression `xs[low:]`; it panics unless `0 ≤ low ≤ len(xs)`. -/
def sliceFrom {α : Type} (xs : List α) (low : Int) : Option (List α) :=
  if 0 ≤ low ∧ low ≤ (xs.length : Int) then some (xs.drop low.toNat) else none

/-- Go slice expression `xs[:high]`; the bound is taken against the length
(capacity is not modelled). -/
def sliceTo {α : Type} (xs : List α) (high : Int) : Option (List α) :=
  if 0 ≤ high ∧ high ≤ (xs.length : Int) then some (xs.take high.toNat) else none

/-- NewPacketStore creates a new packet store with a maximum size. -/
def NewPacketStore (maxSize : Int) : PacketStore :=
  { heap := [], packets := [], pairs := [], pairList := [],
    maxSize := maxSize, nextID := 1, nextPair := 1 }

/-- Lines 74-77 of `Add`: stamp the packet with `nextID`, bump the counter, append. -/
def appendPacket (s : PacketStore) (p : CapturedPacket) : PacketStore × CapturedPacket :=
  let p := { p with ID := s.nextID }
  ({ s with nextID := s.nextID + 1, packets := s.packets ++ [p] }, p)

/-- Lines 82-86 / 93-97 of `Add`: store `p` in the leg selected by its type. -/
def setLeg (pair : PacketPair) (p : CapturedPacket) : PacketPair :=
  if p.Typ = PacketRequest then { pair with Request := some p }
  else { pair with Response := some p }

/-- Lines 79-101 of `Add`: track request/response pairs (`p` is already stamped). -/
def trackPair (s : PacketStore) (p : CapturedPacket) : PacketStore :=
  if p.PairKey ≠ "" then
    match mapGet s.pairs p.PairKey with
    | some a => { s with heap := s.heap.set a (setLeg (deref s.heap a) p) }
    | none =>
      let pair : PacketPair :=
        { ID := s.nextPair, Timestamp := p.Timestamp, Request := none, Response := none }
      let a : Addr := s.heap.length
      { s with
        nextPair := s.nextPair + 1
        heap := s.heap ++ [setLeg pair p]
        pairs := mapSet s.pairs p.PairKey a
        pairList := s.pairList ++ [a] }
  else s

/-- Lines 103-106 of `Add`: trim old packets if we exceed maxSize. -/
def trimPackets (s : PacketStore) : Option PacketStore :=
  if (s.packets.length : Int) > s.maxSize then
    (sliceFrom s.packets ((s.packets.length : Int) - s.maxSize)).map
      (fun ps => { s with packets := ps })
  else some s

/-- Lines 111-117 of `Add`: remove the old pairs from the map. -/
def deleteOld (heap : List PacketPair) :
    List (String × Addr) → List Addr → List (String × Addr)
  | pairs, [] => pairs
  | pairs, a :: rest =>
    match (deref heap a).Request with
    | some r => deleteOld heap (mapDelete pairs r.PairKey) rest
    | none =>
      match (deref heap a).Response with
      | some r => deleteOld heap (mapDelete pairs r.PairKey) rest
      | none => deleteOld heap pairs rest

/-- Lines 108-119 of `Add`: trim old pairs. -/
def trimPairs (s : PacketStore) : Option PacketStore :=
  if (s.pairList.length : Int) > s.maxSize then
    match sliceTo s.pairList ((s.pairList.length : Int) - s.maxSize) with
    | none => none
    | some old =>
      (sliceFrom s.pairList ((s.pairList.length : Int) - s.maxSize)).map
        (fun keep => { s with pairs := deleteOld s.heap s.pairs old, pairList := keep })
  else some s

/-- Add adds a new packet to the store. -/
def Add (s : PacketStore) (p : CapturedPacket) : Option PacketStore :=
  let sp := appendPacket s p
  (trimPackets (trackPair sp.1 sp.2)).bind trimPairs

/-- GetAll returns all captured packets (newest first). -/
def GetAll (s : PacketStore) : List CapturedPacket :=
  s.packets.reverse

/-- GetPairs returns all packet pairs (newest first). -/
def GetPairs (s : PacketStore) : List PacketPair :=
  (s.pairList.map (deref s.heap)).reverse

/-- Clear removes all packets from the store. -/
def Clear (s : PacketStore) : PacketStore :=
  { s with packets := [], pairs := [], pairList := [] }

/-- Count returns the number of stored packets. -/
def Count (s : PacketStore) : Int :=
  (s.packets.length : Int)

/-- A call made on the store by a client. -/
inductive Op where
  | add (p : CapturedPacket)
  | clear
  deriving DecidableEq, Repr

/-- Apply one call. -/
def applyOp (s : PacketStore) : Op → Option PacketStore
  | .add p => Add s p
  | .clear => some (Clear s)

/-- Apply a sequence of calls, in order. -/
def runOps : PacketStore → List Op → Option PacketStore
  | s, [] => some s
  | s, op :: rest => (applyOp s op).bind (fun t => runOps t rest)

/-- Apply a sequence of `Add` calls, in order. -/
def addAll (s : PacketStore) (ps : List CapturedPacket) : Option PacketStore :=
  runOps s (ps.map Op.add)

/-- The messages handed to `Add` by a sequence of calls, in call order. -/
def addedMsgs : List Op → List CapturedPacket
  | [] => []
  | .add p :: rest => p :: addedMsgs rest
  | .clear :: rest => addedMsgs rest

/-- A store value that some sequence of calls produces from a new store. -/
def Reachable (s : PacketStore) : Prop :=
  ∃ (m : Int) (ops : List Op), runOps (NewPacketStore m) ops = some s


/-! ## stream.go

The loop of `httpStream.run` reads through three collaborators that are not code of the
repository: the buffered reader over the flow (`bufio.Reader.ReadLine`) and the parsers
of `net/http` (`http.ReadRequest`, `http.ReadResponse`, each followed by `io.ReadAll` of
the body).  They are parameters of the model (`Flow`); the loop itself, the
classification and the error handling are embedded from the source. -/

/-- A Go string or byte slice. -/
abbrev Bytes := List UInt8

/-- The bytes of an ASCII string literal. -/
def ascii (s : String) : Bytes :=
  s.toList.map (fun c => c.toNat.toUInt8)

/-- Go `strings.HasPrefix(s, pre)`. -/
def HasPrefix (s pre : Bytes) : Bool :=
  pre.isPrefixOf s

/-- The local `methods` of `isHTTPRequest`. -/
def methods : List String :=
  ["GET", "POST", "PUT", "DELETE", "PATCH", "HEAD", "OPTIONS", "TRACE", "CONNECT"]

/-- The method `isHTTPRequest` of `httpStream`. -/
def isHTTPRequest (line : Bytes) : Bool :=
  methods.any (fun method => HasPrefix line (ascii (method ++ " ")))

/-- The method `isHTTPResponse` of `httpStream`. -/
def isHTTPResponse (line : Bytes) : Bool :=
  HasPrefix line (ascii "HTTP/")

/-- What `line, _, err := buf.ReadLine()` gives the loop: a line, `io.EOF`, or another
error. -/
inductive ReadResult where
  | line (l : Bytes)
  | eof
  | error (msg : String)
  deriving DecidableEq, Repr

/-- Outcome of the body read `io.ReadAll(req.Body)`. -/
inductive BodyResult where
  | ok (body : Bytes)
  | failed (msg : String)
  deriving DecidableEq, Repr

/-- Outcome of `http.ReadRequest` / `http.ReadResponse` and of the body read that
follows a successful parse. -/
inductive ParseResult (M : Type) where
  | failed (msg : String)
  | parsed (m : M) (body : BodyResult)

/-- The collaborators of `run`, over a reader state `σ` and a parsed-message type `M`.
The parsers get the re-attached line (`lineStr + "\r\n"`) and the reader. -/
structure Flow (σ M : Type) where
  ReadLine : σ → ReadResult × σ
  ReadRequest : Bytes → σ → ParseResult M × σ
  ReadResponse : Bytes → σ → ParseResult M × σ

/-- What one pass of the loop prints: the `log.Println` lines and the calls of
`logRequest` / `logResponse`. -/
inductive Event (M : Type) where
  | errorReadingStream (msg : String)
  | errorReadingRequest (msg : String)
  | errorReadingRequestBody (msg : String)
  | logRequest (req : M) (bodyBytes : Bytes)
  | errorReadingResponse (msg : String)
  | errorReadingResponseBody (msg : String)
  | logResponse (resp : M) (bodyBytes : Bytes)
  deriving DecidableEq, Repr

/-- One pass through the body of the `for` loop of `run`: what it prints, whether the
loop goes on (`true`) or `run` returns (`false`), and the reader state it leaves. -/
def iteration {σ M : Type} (F : Flow σ M) (st : σ) : List (Event M) × Bool × σ :=
  match F.ReadLine st with
  | (.eof, st1) => ([], false, st1)
  | (.error msg, st1) => ([.errorReadingStream msg], true, st1)
  | (.line line, st1) =>
    if isHTTPRequest line then
      match F.ReadRequest (line ++ ascii "\r\n") st1 with
      | (.failed msg, st2) => ([.errorReadingRequest msg], true, st2)
      | (.parsed req (.ok bodyBytes), st2) => ([.logRequest req bodyBytes], true, st2)
      | (.parsed req (.failed msg), st2) =>
        ([.errorReadingRequestBody msg, .logRequest req []], true, st2)
    else if isHTTPResponse line then
      match F.ReadResponse (line ++ ascii "\r\n") st1 with
      | (.failed msg, st2) => ([.errorReadingResponse msg], true, st2)
      | (.parsed resp (.ok bodyBytes), st2) => ([.logResponse resp bodyBytes], true, st2)
      | (.parsed resp (.failed msg), st2) =>
        ([.errorReadingResponseBody msg, .logResponse resp []], true, st2)
    else ([], true, st1)

/-- The loop of `run`, for at most `fuel` passes: everything printed, whether `run`
returned within the fuel, and the reader state at that point. -/
def run {σ M : Type} (F : Flow σ M) : Nat → σ → List (Event M) × Bool × σ
  | 0, st => ([], false, st)
  | fuel + 1, st =>
    match iteration F st with
    | (evs, false, st1) => (evs, true, st1)
    | (evs, true, st1) =>
      let r := run F fuel st1
      (evs ++ r.1, r.2.1, r.2.2)

/-- A scripted reader: the outcomes of the coming `ReadLine` calls and the number of
`ReadLine` calls made so far. -/
structure Script where
  pending : List ReadResult
  reads : Nat
  deriving DecidableEq, Repr

/-- A flow over a scripted reader (end-of-input once the script is used up); the
parsers consume nothing and return the re-attached line with an empty body. -/
def scriptFlow : Flow Script Bytes where
  ReadLine st :=
    match st.pending with
    | [] => (.eof, { st with reads := st.reads + 1 })
    | r :: rest => (r, { pending := rest, reads := st.reads + 1 })
  ReadRequest fullLine st := (.parsed fullLine (.ok []), st)
  ReadResponse fullLine st := (.parsed fullLine (.ok []), st)

/-! ### The buffered readers behind `run`

`run` reads lines from `buf := bufio.NewReader(&h.r)` and, for every classified line,
parses through a new `bufio.NewReader(io.MultiReader(strings.NewReader(fullLine), buf))`
which it drops after the message.  The definitions below follow the Go standard library
(`bufio.Reader.fill`, `Read`, `ReadLine`; `io.MultiReader.Read`) for streams whose
messages fit one buffer: the bytes a temporary reader has pulled are kept in one list
(`inner`), and a parser is a function of the bytes pulled so far. -/

/-- The `defaultBufSize` of package `bufio`. -/
def bufSize : Nat := 4096

/-- The flow's buffered reader `buf`: the chunks the underlying stream still delivers
(one per `Read` call on it, end of input after the last one) and the bytes `buf` has
read from the stream and not yet handed out. -/
structure BufReader where
  chunks : List Bytes
  buffered : Bytes
  deriving DecidableEq, Repr

/-- One `Read(p)` on the underlying stream, `len(p) = n`; `none` is `io.EOF`. -/
def readUnderlying (n : Nat) : List Bytes → Option Bytes × List Bytes
  | [] => (none, [])
  | c :: rest =>
    if c.length ≤ n then (some c, rest) else (some (c.take n), c.drop n :: rest)

/-- Split at the first `\n`: the bytes before it and the bytes after it. -/
def splitLine : Bytes → Option (Bytes × Bytes)
  | [] => none
  | b :: rest =>
    if b = 10 then some ([], rest)
    else
      match splitLine rest with
      | none => none
      | some (l, r) => some (b :: l, r)

/-- `ReadLine` drops a `\r` in front of the `\n`. -/
def dropCR (l : Bytes) : Bytes :=
  if l.getLast? = some 13 then l.dropLast else l

/-- Number of chunks plus number of bytes still to come from the underlying stream. -/
def streamSize (chunks : List Bytes) : Nat :=
  chunks.length + (chunks.map List.length).sum

/-- `buf.ReadLine()`: hand out the next line of the buffer, filling the buffer from the
stream while it holds no `\n`.  A full buffer without `\n` is handed out as it is; at the
end of input the remaining bytes are the last line. -/
def readLineLoop : Nat → BufReader → ReadResult × BufReader
  | 0, r => (ReadResult.error "multiple Read calls return no data or error", r)
  | fuel + 1, r =>
    match splitLine r.buffered with
    | some (l, rest) => (ReadResult.line (dropCR l), { r with buffered := rest })
    | none =>
      if bufSize ≤ r.buffered.length then
        if r.buffered.getLast? = some 13 then
          (ReadResult.line r.buffered.dropLast, { r with buffered := [13] })
        else (ReadResult.line r.buffered, { r with buffered := [] })
      else
        match readUnderlying (bufSize - r.buffered.length) r.chunks with
        | (none, chunks) =>
          if r.buffered = [] then (ReadResult.eof, { chunks := chunks, buffered := [] })
          else (ReadResult.line r.buffered, { chunks := chunks, buffered := [] })
        | (some bs, chunks) => readLineLoop fuel { chunks := chunks, buffered := r.buffered ++ bs }

/-- One `buf.Read(p)`, `len(p) = n > 0`, as the temporary reader calls it through the
`io.MultiReader` once the re-attached line is used up: buffered bytes are copied out as
far as `p` has room; with an empty buffer one `Read` goes to the stream (directly into
`p` when `p` is at least a buffer long).  `none` is `io.EOF`. -/
def bufRead (n : Nat) (r : BufReader) : Option Bytes × BufReader :=
  if r.buffered ≠ [] then
    (some (r.buffered.take n), { r with buffered := r.buffered.drop n })
  else if bufSize ≤ n then
    match readUnderlying n r.chunks with
    | (none, chunks) => (none, { chunks := chunks, buffered := [] })
    | (some bs, chunks) => (some bs, { chunks := chunks, buffered := [] })
  else
    match readUnderlying bufSize r.chunks with
    | (none, chunks) => (none, { chunks := chunks, buffered := [] })
    | (some bs, chunks) => (some (bs.take n), { chunks := chunks, buffered := bs.drop n })

/-- What a parser makes of the bytes pulled so far through the temporary reader
(`atEOF`: the stream has ended): it needs more bytes (`head` holds the start line and
headers once they are complete), it fails, or it has a message and its body. -/
inductive ParseStep (M : Type) where
  | needMore (head : Option M)
  | failed (msg : String)
  | done (m : M) (body : Bytes)

/-- `http.ReadRequest` / `http.ReadResponse` and `io.ReadAll` of the body, through the
temporary reader: `inner` are the bytes it has pulled (first the re-attached line), and
each time the parser needs more it pulls once from `buf`.  The temporary reader is
dropped at the end: only `buf` is returned. -/
def parseLoop {M : Type} (parse : Bytes → Bool → ParseStep M) :
    Nat → Bytes → BufReader → ParseResult M × BufReader
  | 0, _, r => (ParseResult.failed "multiple Read calls return no data or error", r)
  | fuel + 1, inner, r =>
    match parse inner false with
    | ParseStep.done m body => (ParseResult.parsed m (BodyResult.ok body), r)
    | ParseStep.failed msg => (ParseResult.failed msg, r)
    | ParseStep.needMore _ =>
      if bufSize ≤ inner.length then (ParseResult.failed "bufio: buffer full", r)
      else
        match bufRead (bufSize - inner.length) r with
        | (some bs, r1) => parseLoop parse fuel (inner ++ bs) r1
        | (none, r1) =>
          match parse inner true with
          | ParseStep.done m body => (ParseResult.parsed m (BodyResult.ok body), r1)
          | ParseStep.failed msg => (ParseResult.failed msg, r1)
          | ParseStep.needMore (some m) =>
            (ParseResult.parsed m (BodyResult.failed "unexpected EOF"), r1)
          | ParseStep.needMore none => (ParseResult.failed "unexpected EOF", r1)

/-- The flow of `run` over a byte stream: `buf.ReadLine()`, and the two parsers reading
through a temporary reader in front of `buf`. -/
def bufFlow {M : Type} (parseReq parseResp : Bytes → Bool → ParseStep M) :
    Flow BufReader M where
  ReadLine r := readLineLoop (streamSize r.chunks + 1) r
  ReadRequest fullLine r :=
    parseLoop parseReq (2 * streamSize r.chunks + r.buffered.length + 2) fullLine r
  ReadResponse fullLine r :=
    parseLoop parseResp (2 * streamSize r.chunks + r.buffered.length + 2) fullLine r

/-- Number of messages a run has processed: the calls of `logRequest` and
`logResponse`. -/
def messagesLogged {M : Type} : List (Event M) → Nat
  | [] => 0
  | Event.logRequest _ _ :: rest => messagesLogged rest + 1
  | Event.logResponse _ _ :: rest => messagesLogged rest + 1
  | _ :: rest => messagesLogged rest

/-- Position just after the first empty line (`\r\n\r\n`), if there is one. -/
def headEnd : Bytes → Option Nat
  | [] => none
  | b :: rest =>
    if HasPrefix (b :: rest) (ascii "\r\n\r\n") then some 4
    else (headEnd rest).map (fun k => k + 1)

/-- The value of the leading decimal digits. -/
def digitsValue : Bytes → Nat → Nat
  | [], acc => acc
  | b :: rest, acc =>
    if 48 ≤ b.toNat ∧ b.toNat ≤ 57 then digitsValue rest (acc * 10 + (b.toNat - 48))
    else acc

/-- The value of the `Content-Length` header of a header block, 0 without one. -/
def contentLength : Bytes → Nat
  | [] => 0
  | b :: rest =>
    if HasPrefix (b :: rest) (ascii "\r\nContent-Length: ") then
      digitsValue ((b :: rest).drop 18) 0
    else contentLength rest

/-- A stand-in for the parsers of `net/http`, for messages framed by `Content-Length`:
start line and headers up to the empty line, then `Content-Length` bytes of body. -/
def parseByContentLength (avail : Bytes) (atEOF : Bool) : ParseStep Bytes :=
  match headEnd avail with
  | none => if atEOF then ParseStep.failed "unexpected EOF" else ParseStep.needMore none
  | some k =>
    if k + contentLength (avail.take k) ≤ avail.length then
      ParseStep.done (avail.take k) ((avail.drop k).take (contentLength (avail.take k)))
    else ParseStep.needMore (some (avail.take k))

/-- A request with `Content-Length: 2` and a two-byte body. -/
def firstMessage : Bytes :=
  ascii "POST /a HTTP/1.1\r\nContent-Length: 2\r\n\r\nhi"

/-- A second request, without body. -/
def secondMessage : Bytes :=
  ascii "GET /b HTTP/1.1\r\n\r\n"

/-- The two messages delivered by the stream in one `Read`. -/
def oneChunk : BufReader :=
  { chunks := [firstMessage ++ secondMessage], buffered := [] }

/-- The two messages delivered by the stream in two `Read`s, split between them. -/
def twoChunks : BufReader :=
  { chunks := [firstMessage, secondMessage], buffered := [] }

/-! ## Specification-side helpers -/

/-- The messages `ps` carrying consecutive IDs from `start`, as `Add` stores them. -/
def stampFrom (start : Int) : List CapturedPacket → List CapturedPacket
  | [] => []
  | p :: ps => { p with ID := start } :: stampFrom (start + 1) ps

/-- The last `m` elements of a list: the Go expression `xs[len(xs)-m:]` when it is
taken, the whole list otherwise. -/
def lastN {α : Type} (m : Nat) (xs : List α) : List α :=
  xs.drop (xs.length - m)

/-- The state `Add` builds before trimming: lines 74-101. -/
def tracked (s : PacketStore) (p : CapturedPacket) : PacketStore :=
  trackPair (appendPacket s p).1 (appendPacket s p).2

/-- The stamped copy that `Add` stores for its argument `p`. -/
def stamped (s : PacketStore) (p : CapturedPacket) : CapturedPacket :=
  (appendPacket s p).2

/-- The pair `Add` allocates when the PairKey of `p` has no entry (lines 88-97). -/
def freshPair (s : PacketStore) (p : CapturedPacket) : PacketPair :=
  setLeg { ID := s.nextPair, Timestamp := p.Timestamp, Request := none, Response := none }
    (stamped s p)

/-- Message `q` is the `k`-th message handed to `Add` (for some `k ≥ 1`), carrying ID `k`. -/
def StampedIn (msgs : List CapturedPacket) (q : CapturedPacket) : Prop :=
  ∃ (i : Nat) (p : CapturedPacket), msgs[i]? = some p ∧ q = { p with ID := (i : Int) + 1 }

/-- Both legs of a pair, as a list. -/
def legs (pr : PacketPair) : List CapturedPacket :=
  pr.Request.toList ++ pr.Response.toList

/-- A sample request. -/
def sampleRequest : CapturedPacket :=
  { (default : CapturedPacket) with
    Typ := PacketRequest, Method := "GET", URL := "/a", PairKey := "k1", Timestamp := 10
    Body := "ping", BodySize := 4 }

/-- A sample response. -/
def sampleResponse : CapturedPacket :=
  { (default : CapturedPacket) with
    Typ := PacketResponse, Status := "200 OK", StatusCode := 200, PairKey := "k1"
    Timestamp := 11, Body := "pong", BodySize := 4 }

/-- Identifier invariant of a store that has been handed the messages `msgs` so far. -/
structure IdInv (msgs : List CapturedPacket) (s : PacketStore) : Prop where
  next : s.nextID = (msgs.length : Int) + 1
  hist : ∀ q ∈ s.packets, StampedIn msgs q
  heapLegs : ∀ pr ∈ s.heap, ∀ q ∈ legs pr, StampedIn msgs q
  incr : (s.packets.map (fun q => q.ID)).Pairwise (fun a b => a < b)
  below : ∀ q ∈ s.packets, q.ID < s.nextID

/-- The key that lines 112-116 of `Add` delete for an evicted pair: the PairKey of its
request leg, else of its response leg, else none. -/
def oldKey (pr : PacketPair) : Option String :=
  match pr.Request with
  | some r => some r.PairKey
  | none =>
    match pr.Response with
    | some r => some r.PairKey
    | none => none

/-- Pair `pr` belongs to key `K`: it has a leg, and every leg carries PairKey `K`. -/
def HasKey (pr : PacketPair) (K : String) : Prop :=
  legs pr ≠ [] ∧ ∀ q ∈ legs pr, q.PairKey = K

/-- Consistency of the pairing map, the pair list and the heap. -/
structure PairInv (s : PacketStore) : Prop where
  nodup : s.pairList.Nodup
  valid : ∀ a ∈ s.pairList, a < s.heap.length
  keyed : ∀ K a, mapGet s.pairs K = some a →
    K ≠ "" ∧ a ∈ s.pairList ∧ HasKey (deref s.heap a) K
  covered : ∀ a ∈ s.pairList, ∃ K, mapGet s.pairs K = some a
  keysNodup : (s.pairs.map Prod.fst).Nodup
  ids : ∀ pr ∈ s.heap, pr.ID < s.nextPair

/-- The pair list respects the bound (a negative `maxSize` counts as zero). -/
def Bounded (s : PacketStore) : Prop :=
  s.pairList.length ≤ s.maxSize.toNat

/-- A second sample request, on another flow (PairKey `k2`). -/
def sampleRequest2 : CapturedPacket :=
  { sampleRequest with URL := "/b", PairKey := "k2", Timestamp := 12 }

/-- The store after `Add sampleRequest` on `NewPacketStore 1`. -/
def storeAfterFirst : PacketStore :=
  { heap := [{ ID := 1, Timestamp := 10, Request := some { sampleRequest with ID := 1 },
               Response := none }]
    packets := [{ sampleRequest with ID := 1 }]
    pairs := [("k1", 0)]
    pairList := [0]
    maxSize := 1
    nextID := 2
    nextPair := 2 }

/-- The store after `Add sampleRequest2` on `storeAfterFirst`: the pair of `k1` is
evicted. -/
def storeAfterSecond : PacketStore :=
  { heap := [{ ID := 1, Timestamp := 10, Request := some { sampleRequest with ID := 1 },
               Response := none },
             { ID := 2, Timestamp := 12, Request := some { sampleRequest2 with ID := 2 },
               Response := none }]
    packets := [{ sampleRequest2 with ID := 2 }]
    pairs := [("k2", 1)]
    pairList := [1]
    maxSize := 1
    nextID := 3
    nextPair := 3 }

/-- A sample message with an empty PairKey. -/
def sampleNoKey : CapturedPacket :=
  { sampleRequest with PairKey := "" }

/-- The store after `Add sampleNoKey` on `NewPacketStore 1`. -/
def storeAfterNoKey : PacketStore :=
  { heap := []
    packets := [{ sampleNoKey with ID := 1 }]
    pairs := []
    pairList := []
    maxSize := 1
    nextID := 2
    nextPair := 1 }

/-- Renumber a message: add `d` to its ID. -/
def shiftID (d : Int) (q : CapturedPacket) : CapturedPacket :=
  { q with ID := q.ID + d }

/-- Renumber a pair: add `e` to its id and `d` to the IDs of its legs. -/
def shiftPair (d e : Int) (pr : PacketPair) : PacketPair :=
  { pr with
    ID := pr.ID + e
    Request := pr.Request.map (shiftID d)
    Response := pr.Response.map (shiftID d) }

/-- A script on which `ReadLine` first fails with an error that is not `io.EOF`, then
returns a request line, then reports end of input. -/
def errorThenRequest : Script :=
  { pending := [ReadResult.error "connection reset",
                ReadResult.line (ascii "GET / HTTP/1.1"), ReadResult.eof]
    reads := 0 }

/-- The pair `Add` allocates for message `p` when it assigns message ID `i` and pair
id `j`: only the leg of the kind of `p` is set. -/
def soloPair (i j : Int) (p : CapturedPacket) : PacketPair :=
  setLeg { ID := j, Timestamp := p.Timestamp, Request := none, Response := none }
    { p with ID := i }

/-- One pair per message: consecutive message IDs from `i`, consecutive pair ids from
`j`. -/
def soloPairs (i j : Int) : List CapturedPacket → List PacketPair
  | [] => []
  | p :: ps => soloPair i j p :: soloPairs (i + 1) (j + 1) ps

/-- The list counts down by one, starting at `n - 1`. -/
def CountsDownFrom : Int → List Int → Prop
  | _, [] => True
  | n, x :: xs => x = n - 1 ∧ CountsDownFrom (n - 1) xs

/-- The ids of the pairs returned by `GetPairs`, in that order. -/
def pairIds (s : PacketStore) : List Int :=
  (GetPairs s).map (fun pr => pr.ID)

/-! ## Basic facts -/

theorem lastN_length {α : Type} (m : Nat) (xs : List α) :
    (lastN m xs).length = min m xs.length := by
  unfold lastN
  simp only [List.length_drop]
  omega

theorem lastN_of_le {α : Type} (m : Nat) (xs : List α) (h : xs.length ≤ m) :
    lastN m xs = xs := by
  unfold lastN
  have : xs.length - m = 0 := by omega
  rw [this, List.drop_zero]

theorem lastN_append_lastN {α : Type} (m : Nat) (xs ys : List α) :
    lastN m (lastN m xs ++ ys) = lastN m (xs ++ ys) := by
  by_cases h : xs.length ≤ m
  · rw [lastN_of_le m xs h]
  · have hl : (lastN m xs).length = m := by rw [lastN_length]; omega
    unfold lastN at hl ⊢
    rw [List.length_append, List.length_append, hl]
    rw [List.drop_append_eq_append_drop, List.drop_append_eq_append_drop, List.drop_drop, hl]
    congr 2
    · omega
    · omega

theorem stampFrom_length (start : Int) (ps : List CapturedPacket) :
    (stampFrom start ps).length = ps.length := by
  induction ps generalizing start with
  | nil => rfl
  | cons p ps ih => simp [stampFrom, ih]

theorem stampFrom_append (start : Int) (ps qs : List CapturedPacket) :
    stampFrom start (ps ++ qs) = stampFrom start ps ++ stampFrom (start + ps.length) qs := by
  induction ps generalizing start with
  | nil => simp [stampFrom]
  | cons p ps ih =>
    have h := ih (start + 1)
    have e : start + 1 + (ps.length : Int) = start + ((p :: ps).length : Int) := by
      simp only [List.length_cons, Nat.cast_add, Nat.cast_one]
      omega
    rw [e] at h
    show { p with ID := start } :: stampFrom (start + 1) (ps ++ qs) = _
    rw [h]
    rfl

theorem stampFrom_drop (start : Int) (k : Nat) (ps : List CapturedPacket) :
    (stampFrom start ps).drop k = stampFrom (start + (min k ps.length : Nat)) (ps.drop k) := by
  induction ps generalizing start k with
  | nil => simp [stampFrom]
  | cons p ps ih =>
    cases k with
    | zero => simp [stampFrom]
    | succ k =>
      simp only [stampFrom, List.drop_succ_cons, ih, List.length_cons]
      congr 1
      have : min (k + 1) (ps.length + 1) = min k ps.length + 1 := by omega
      rw [this]
      push_cast
      omega

theorem stampFrom_getElem? (start : Int) (ps : List CapturedPacket) (i : Nat) :
    (stampFrom start ps)[i]? = ps[i]?.map (fun p => { p with ID := start + (i : Int) }) := by
  induction ps generalizing start i with
  | nil => simp [stampFrom]
  | cons p ps ih =>
    cases i with
    | zero => simp [stampFrom]
    | succ i =>
      simp only [stampFrom, List.getElem?_cons_succ, ih]
      have : start + 1 + (i : Int) = start + ((i + 1 : Nat) : Int) := by push_cast; omega
      rw [this]

theorem trackPair_packets (s : PacketStore) (p : CapturedPacket) :
    (trackPair s p).packets = s.packets := by
  unfold trackPair
  split
  · split <;> rfl
  · rfl

theorem trackPair_maxSize (s : PacketStore) (p : CapturedPacket) :
    (trackPair s p).maxSize = s.maxSize := by
  unfold trackPair
  split
  · split <;> rfl
  · rfl

theorem trackPair_nextID (s : PacketStore) (p : CapturedPacket) :
    (trackPair s p).nextID = s.nextID := by
  unfold trackPair
  split
  · split <;> rfl
  · rfl

theorem trimPackets_of_nonneg (s : PacketStore) (h : 0 ≤ s.maxSize) :
    trimPackets s = some { s with packets := lastN s.maxSize.toNat s.packets } := by
  unfold trimPackets sliceFrom lastN
  split
  · rw [if_pos (by omega)]
    simp only [Option.map_some']
    congr 3
    omega
  · have : s.packets.length - s.maxSize.toNat = 0 := by omega
    rw [this, List.drop_zero]

theorem trimPairs_of_nonneg (s : PacketStore) (h : 0 ≤ s.maxSize) :
    trimPairs s = some { s with
      pairs := deleteOld s.heap s.pairs (s.pairList.take (s.pairList.length - s.maxSize.toNat))
      pairList := lastN s.maxSize.toNat s.pairList } := by
  unfold trimPairs sliceFrom sliceTo lastN
  split
  · have hc : 0 ≤ (s.pairList.length : Int) - s.maxSize ∧
        (s.pairList.length : Int) - s.maxSize ≤ (s.pairList.length : Int) := by omega
    rw [if_pos hc, if_pos hc]
    simp only [Option.map_some']
    have : ((s.pairList.length : Int) - s.maxSize).toNat
        = s.pairList.length - s.maxSize.toNat := by omega
    rw [this]
  · have : s.pairList.length - s.maxSize.toNat = 0 := by omega
    rw [this, List.drop_zero, List.take_zero]
    rfl

theorem trimPackets_of_neg (s : PacketStore) (h : s.maxSize < 0) :
    trimPackets s = none := by
  unfold trimPackets sliceFrom
  rw [if_pos (by omega), if_neg (by omega)]
  rfl

theorem tracked_packets (s : PacketStore) (p : CapturedPacket) :
    (tracked s p).packets = s.packets ++ [{ p with ID := s.nextID }] := by
  unfold tracked
  rw [trackPair_packets]
  rfl

theorem tracked_maxSize (s : PacketStore) (p : CapturedPacket) :
    (tracked s p).maxSize = s.maxSize := by
  unfold tracked
  rw [trackPair_maxSize]
  rfl

theorem tracked_nextID (s : PacketStore) (p : CapturedPacket) :
    (tracked s p).nextID = s.nextID + 1 := by
  unfold tracked
  rw [trackPair_nextID]
  rfl

/-- With a non-negative `maxSize`, `Add` returns, and its result is the tracked
state with both trims applied. -/
theorem Add_of_nonneg (s : PacketStore) (p : CapturedPacket) (h : 0 ≤ s.maxSize) :
    Add s p = some { tracked s p with
      packets := lastN s.maxSize.toNat (tracked s p).packets
      pairs := deleteOld (tracked s p).heap (tracked s p).pairs
        ((tracked s p).pairList.take ((tracked s p).pairList.length - s.maxSize.toNat))
      pairList := lastN s.maxSize.toNat (tracked s p).pairList } := by
  have hm : (tracked s p).maxSize = s.maxSize := tracked_maxSize s p
  unfold Add
  show (trimPackets (tracked s p)).bind trimPairs = _
  rw [trimPackets_of_nonneg _ (by omega), Option.some_bind, trimPairs_of_nonneg _ (by simpa using by omega)]
  simp only [hm]

theorem Add_of_neg (s : PacketStore) (p : CapturedPacket) (h : s.maxSize < 0) :
    Add s p = none := by
  unfold Add
  show (trimPackets (tracked s p)).bind trimPairs = _
  rw [trimPackets_of_neg _ (by rw [tracked_maxSize]; exact h)]
  rfl


theorem runOps_append (s : PacketStore) (a b : List Op) :
    runOps s (a ++ b) = (runOps s a).bind (fun t => runOps t b) := by
  induction a generalizing s with
  | nil => rfl
  | cons op a ih =>
    simp only [List.cons_append, runOps]
    cases applyOp s op with
    | none => rfl
    | some t => exact ih t

/-- What a returning `Add` does to the flat history and to the scalar fields. -/
theorem Add_some_packets {s t : PacketStore} {p : CapturedPacket} (h : Add s p = some t) :
    0 ≤ s.maxSize ∧ t.maxSize = s.maxSize ∧ t.nextID = s.nextID + 1 ∧
      t.packets = lastN s.maxSize.toNat (s.packets ++ [{ p with ID := s.nextID }]) := by
  by_cases hm : 0 ≤ s.maxSize
  · rw [Add_of_nonneg s p hm] at h
    cases h
    exact ⟨hm, tracked_maxSize s p, tracked_nextID s p, by rw [tracked_packets]⟩
  · rw [Add_of_neg s p (by omega)] at h
    cases h

/-- A run of `Add` calls on a store with non-negative `maxSize` returns, and keeps the
last `maxSize` of the stamped messages. -/
theorem addAll_packets (s : PacketStore) (hm : 0 ≤ s.maxSize)
    (hp : s.packets.length ≤ s.maxSize.toNat) (ps : List CapturedPacket) :
    ∃ t, addAll s ps = some t ∧ t.maxSize = s.maxSize ∧
      t.nextID = s.nextID + (ps.length : Int) ∧
      t.packets = lastN s.maxSize.toNat (s.packets ++ stampFrom s.nextID ps) := by
  induction ps generalizing s with
  | nil =>
    refine ⟨s, rfl, rfl, by simp, ?_⟩
    simp only [stampFrom, List.append_nil]
    exact (lastN_of_le _ _ hp).symm
  | cons p ps ih =>
    obtain ⟨u, hu⟩ : ∃ u, Add s p = some u := ⟨_, Add_of_nonneg s p hm⟩
    obtain ⟨-, hu1, hu2, hu3⟩ := Add_some_packets hu
    have hup : u.packets.length ≤ u.maxSize.toNat := by
      rw [hu3, hu1, lastN_length]
      omega
    obtain ⟨t, ht, ht1, ht2, ht3⟩ := ih u (by omega) hup
    refine ⟨t, ?_, by omega, ?_, ?_⟩
    · show (Add s p).bind (fun t => runOps t (ps.map Op.add)) = some t
      rw [hu]
      exact ht
    · rw [ht2, hu2, List.length_cons]
      push_cast
      omega
    · rw [ht3, hu1, hu2, hu3, lastN_append_lastN, List.append_assoc]
      rfl


/-! ## The three cases of pair tracking -/

theorem stamped_PairKey (s : PacketStore) (p : CapturedPacket) :
    (stamped s p).PairKey = p.PairKey := rfl

theorem stamped_eq (s : PacketStore) (p : CapturedPacket) :
    stamped s p = { p with ID := s.nextID } := rfl

theorem tracked_of_empty (s : PacketStore) (p : CapturedPacket) (h : p.PairKey = "") :
    tracked s p =
      { s with nextID := s.nextID + 1, packets := s.packets ++ [stamped s p] } := by
  unfold tracked trackPair
  rw [if_neg (by simpa [appendPacket] using h)]
  rfl

theorem tracked_of_exists (s : PacketStore) (p : CapturedPacket) (a : Addr)
    (hk : p.PairKey ≠ "") (h : mapGet s.pairs p.PairKey = some a) :
    tracked s p =
      { s with
        nextID := s.nextID + 1
        packets := s.packets ++ [stamped s p]
        heap := s.heap.set a (setLeg (deref s.heap a) (stamped s p)) } := by
  unfold tracked trackPair
  rw [if_pos (by simpa [appendPacket] using hk)]
  have h2 : mapGet (appendPacket s p).1.pairs (appendPacket s p).2.PairKey = some a := h
  rw [h2]
  rfl

theorem tracked_of_fresh (s : PacketStore) (p : CapturedPacket)
    (hk : p.PairKey ≠ "") (h : mapGet s.pairs p.PairKey = none) :
    tracked s p =
      { s with
        nextID := s.nextID + 1
        packets := s.packets ++ [stamped s p]
        nextPair := s.nextPair + 1
        heap := s.heap ++ [freshPair s p]
        pairs := mapSet s.pairs p.PairKey s.heap.length
        pairList := s.pairList ++ [s.heap.length] } := by
  unfold tracked trackPair
  rw [if_pos (by simpa [appendPacket] using hk)]
  have h2 : mapGet (appendPacket s p).1.pairs (appendPacket s p).2.PairKey = none := h
  rw [h2]
  rfl

/-! ## Heap and map facts -/

theorem deref_set (heap : List PacketPair) (a b : Addr) (x : PacketPair) :
    deref (heap.set a x) b = if a = b ∧ a < heap.length then x else deref heap b := by
  unfold deref
  rw [List.getD_eq_getElem?_getD, List.getD_eq_getElem?_getD, List.getElem?_set]
  by_cases hab : a = b
  · subst hab
    by_cases hl : a < heap.length
    · simp [hl]
    · simp [hl, List.getElem?_eq_none (Nat.le_of_not_lt hl)]
  · simp [hab]

theorem deref_append_lt (heap : List PacketPair) (x : PacketPair) (b : Addr)
    (h : b < heap.length) : deref (heap ++ [x]) b = deref heap b := by
  unfold deref
  rw [List.getD_eq_getElem?_getD, List.getD_eq_getElem?_getD, List.getElem?_append_left h]

theorem deref_append_length (heap : List PacketPair) (x : PacketPair) :
    deref (heap ++ [x]) heap.length = x := by
  unfold deref
  simp

theorem deref_mem_or_default (heap : List PacketPair) (a : Addr) :
    deref heap a ∈ heap ∨ deref heap a = default := by
  unfold deref
  rw [List.getD_eq_getElem?_getD]
  cases h : heap[a]? with
  | none => right; rfl
  | some x => left; exact List.mem_iff_getElem?.mpr ⟨a, h⟩

theorem mapGet_mapDelete (m : List (String × Addr)) (k K : String) :
    mapGet (mapDelete m k) K = if K = k then none else mapGet m K := by
  induction m with
  | nil => simp [mapDelete, mapGet]
  | cons e m ih =>
    obtain ⟨k', v⟩ := e
    unfold mapDelete at ih ⊢
    by_cases h1 : k' = k
    · subst h1
      simp only [List.filter_cons, ne_eq, not_true_eq_false, decide_False, Bool.false_eq_true,
        if_false, ih, mapGet]
      by_cases h2 : K = k'
      · simp [h2]
      · have : ¬ k' = K := fun h => h2 h.symm
        simp [h2, this]
    · simp only [List.filter_cons, ne_eq, h1, not_false_eq_true, decide_True, if_true, mapGet, ih]
      by_cases h2 : k' = K
      · subst h2
        simp [h1]
      · simp [h2]

theorem mapGet_mapSet (m : List (String × Addr)) (k K : String) (v : Addr) :
    mapGet (mapSet m k v) K = if K = k then some v else mapGet m K := by
  unfold mapSet
  simp only [mapGet, mapGet_mapDelete]
  by_cases h : k = K
  · subst h
    simp
  · have : ¬ K = k := fun e => h e.symm
    simp [h, this]

theorem setLeg_ID (pr : PacketPair) (p : CapturedPacket) : (setLeg pr p).ID = pr.ID := by
  unfold setLeg
  split <;> rfl

theorem setLeg_Timestamp (pr : PacketPair) (p : CapturedPacket) :
    (setLeg pr p).Timestamp = pr.Timestamp := by
  unfold setLeg
  split <;> rfl

theorem mem_legs (pr : PacketPair) (q : CapturedPacket) :
    q ∈ legs pr ↔ pr.Request = some q ∨ pr.Response = some q := by
  unfold legs
  simp [Option.mem_toList]

theorem mem_legs_setLeg {pr : PacketPair} {p q : CapturedPacket}
    (h : q ∈ legs (setLeg pr p)) : q = p ∨ q ∈ legs pr := by
  rw [mem_legs] at h
  rw [mem_legs]
  unfold setLeg at h
  split at h
  · rcases h with h | h
    · left; exact (Option.some.inj h).symm
    · right; right; exact h
  · rcases h with h | h
    · right; left; exact h
    · left; exact (Option.some.inj h).symm

theorem legs_default : legs (default : PacketPair) = [] := rfl

/-- Every pair in the heap of the tracked state is an old pair, an old pair with one
leg overwritten by the stamped message, or the freshly allocated pair. -/
theorem mem_tracked_heap {s : PacketStore} {p : CapturedPacket} {pr : PacketPair}
    (h : pr ∈ (tracked s p).heap) :
    pr ∈ s.heap ∨ (∃ old, old ∈ s.heap ∧ pr = setLeg old (stamped s p)) ∨
      pr = setLeg default (stamped s p) ∨ pr = freshPair s p := by
  by_cases hk : p.PairKey = ""
  · rw [tracked_of_empty s p hk] at h
    exact Or.inl h
  · cases hg : mapGet s.pairs p.PairKey with
    | some a =>
      rw [tracked_of_exists s p a hk hg] at h
      rcases List.mem_or_eq_of_mem_set h with h | h
      · exact Or.inl h
      · rcases deref_mem_or_default s.heap a with hd | hd
        · exact Or.inr (Or.inl ⟨_, hd, h⟩)
        · rw [hd] at h
          exact Or.inr (Or.inr (Or.inl h))
    | none =>
      rw [tracked_of_fresh s p hk hg] at h
      rcases List.mem_append.mp h with h | h
      · exact Or.inl h
      · exact Or.inr (Or.inr (Or.inr (List.mem_singleton.mp h)))

/-! ## Runs of calls -/

/-- A returning `Add` ran with a non-negative `maxSize`, and its result is the tracked
state with both trims applied. -/
theorem Add_some {s t : PacketStore} {p : CapturedPacket} (h : Add s p = some t) :
    0 ≤ s.maxSize ∧ t = { tracked s p with
      packets := lastN s.maxSize.toNat (tracked s p).packets
      pairs := deleteOld (tracked s p).heap (tracked s p).pairs
        ((tracked s p).pairList.take ((tracked s p).pairList.length - s.maxSize.toNat))
      pairList := lastN s.maxSize.toNat (tracked s p).pairList } := by
  by_cases hm : 0 ≤ s.maxSize
  · rw [Add_of_nonneg s p hm] at h
    exact ⟨hm, (Option.some.inj h).symm⟩
  · rw [Add_of_neg s p (by omega)] at h
    cases h

theorem Add_some_heap {s t : PacketStore} {p : CapturedPacket} (h : Add s p = some t) :
    t.heap = (tracked s p).heap ∧ t.nextPair = (tracked s p).nextPair := by
  obtain ⟨-, rfl⟩ := Add_some h
  exact ⟨rfl, rfl⟩

theorem runOps_total (s : PacketStore) (hm : 0 ≤ s.maxSize) (ops : List Op) :
    ∃ t, runOps s ops = some t ∧ t.maxSize = s.maxSize := by
  induction ops generalizing s with
  | nil => exact ⟨s, rfl, rfl⟩
  | cons op ops ih =>
    cases op with
    | add p =>
      obtain ⟨u, hu⟩ : ∃ u, Add s p = some u := ⟨_, Add_of_nonneg s p hm⟩
      have hu1 := (Add_some_packets hu).2.1
      obtain ⟨t, ht, ht1⟩ := ih u (by omega)
      refine ⟨t, ?_, by omega⟩
      show (Add s p).bind (fun t => runOps t ops) = some t
      rw [hu]
      exact ht
    | clear =>
      obtain ⟨t, ht, ht1⟩ := ih (Clear s) hm
      exact ⟨t, ht, ht1⟩

theorem runOps_maxSize {s t : PacketStore} {ops : List Op} (h : runOps s ops = some t) :
    t.maxSize = s.maxSize := by
  induction ops generalizing s with
  | nil => cases h; rfl
  | cons op ops ih =>
    cases op with
    | add p =>
      change (Add s p).bind (fun t => runOps t ops) = some t at h
      cases hu : Add s p with
      | none => rw [hu] at h; cases h
      | some u =>
        rw [hu] at h
        rw [ih h, (Add_some_packets hu).2.1]
    | clear =>
      change runOps (Clear s) ops = some t at h
      have e := ih h
      exact e

theorem runOps_snoc {s t : PacketStore} {ops : List Op} {op : Op}
    (h : runOps s (ops ++ [op]) = some t) :
    ∃ u, runOps s ops = some u ∧ applyOp u op = some t := by
  rw [runOps_append] at h
  cases hu : runOps s ops with
  | none => rw [hu] at h; cases h
  | some u =>
    rw [hu] at h
    refine ⟨u, rfl, ?_⟩
    change (applyOp u op).bind (fun t => some t) = some t at h
    rwa [Option.bind_some] at h

theorem addedMsgs_append (a b : List Op) :
    addedMsgs (a ++ b) = addedMsgs a ++ addedMsgs b := by
  induction a with
  | nil => rfl
  | cons op a ih =>
    cases op with
    | add p => simp [addedMsgs, ih]
    | clear => simp [addedMsgs, ih]

theorem lastN_sublist {α : Type} (m : Nat) (xs : List α) : (lastN m xs).Sublist xs :=
  List.drop_sublist _ _

theorem mem_of_mem_lastN {α : Type} {m : Nat} {xs : List α} {x : α} (h : x ∈ lastN m xs) :
    x ∈ xs :=
  (lastN_sublist m xs).subset h

theorem lastN_append_singleton {α : Type} (m : Nat) (hm : 0 < m) (xs : List α) (x : α) :
    lastN m (xs ++ [x]) = lastN (m - 1) xs ++ [x] := by
  unfold lastN
  rw [List.length_append, List.length_singleton,
    List.drop_append_of_le_length (by omega)]
  congr 2
  omega

/-! ## Identifier invariant -/

theorem StampedIn_mono {msgs : List CapturedPacket} {q : CapturedPacket} (p : CapturedPacket)
    (h : StampedIn msgs q) : StampedIn (msgs ++ [p]) q := by
  obtain ⟨i, p0, hi, hq⟩ := h
  refine ⟨i, p0, ?_, hq⟩
  have hlt : i < msgs.length := by
    by_contra hge
    rw [List.getElem?_eq_none (Nat.le_of_not_lt hge)] at hi
    cases hi
  rw [List.getElem?_append_left hlt]
  exact hi

theorem StampedIn_last (msgs : List CapturedPacket) (p : CapturedPacket) :
    StampedIn (msgs ++ [p]) { p with ID := (msgs.length : Int) + 1 } :=
  ⟨msgs.length, p, by simp, rfl⟩

theorem IdInv_new (m : Int) : IdInv [] (NewPacketStore m) where
  next := rfl
  hist := by intro q hq; cases hq
  heapLegs := by intro pr hpr; cases hpr
  incr := List.Pairwise.nil
  below := by intro q hq; cases hq

theorem IdInv_clear {msgs : List CapturedPacket} {s : PacketStore} (h : IdInv msgs s) :
    IdInv msgs (Clear s) where
  next := h.next
  hist := by intro q hq; cases hq
  heapLegs := h.heapLegs
  incr := List.Pairwise.nil
  below := by intro q hq; cases hq

theorem IdInv_add {msgs : List CapturedPacket} {s t : PacketStore} {p : CapturedPacket}
    (h : IdInv msgs s) (ht : Add s p = some t) : IdInv (msgs ++ [p]) t := by
  obtain ⟨-, hmax, hnext, hpk⟩ := Add_some_packets ht
  obtain ⟨hheap, -⟩ := Add_some_heap ht
  have hst : stamped s p = { p with ID := (msgs.length : Int) + 1 } := by
    rw [stamped_eq, h.next]
  have hnew : StampedIn (msgs ++ [p]) (stamped s p) := by
    rw [hst]
    exact StampedIn_last msgs p
  have hall : ∀ q ∈ s.packets ++ [{ p with ID := s.nextID }], StampedIn (msgs ++ [p]) q := by
    intro q hq
    rcases List.mem_append.mp hq with hq | hq
    · exact StampedIn_mono p (h.hist q hq)
    · rw [List.mem_singleton.mp hq]
      exact hnew
  have hincr : ((s.packets ++ [{ p with ID := s.nextID }]).map
      (fun (q : CapturedPacket) => q.ID)).Pairwise (fun (a b : Int) => a < b) := by
    rw [List.map_append, List.pairwise_append]
    refine ⟨h.incr, by simp, ?_⟩
    intro a ha b hb
    obtain ⟨q, hq, rfl⟩ := List.mem_map.mp ha
    simp only [List.map_cons, List.map_nil, List.mem_singleton] at hb
    rw [hb]
    exact h.below q hq
  refine ⟨?_, ?_, ?_, ?_, ?_⟩
  · rw [hnext, h.next, List.length_append, List.length_singleton]
    push_cast
    rfl
  · intro q hq
    rw [hpk] at hq
    exact hall q (mem_of_mem_lastN hq)
  · intro pr hpr q hq
    rw [hheap] at hpr
    rcases mem_tracked_heap hpr with h1 | ⟨old, hold, rfl⟩ | rfl | rfl
    · exact StampedIn_mono p (h.heapLegs pr h1 q hq)
    · rcases mem_legs_setLeg hq with rfl | hq
      · exact hnew
      · exact StampedIn_mono p (h.heapLegs old hold q hq)
    · rcases mem_legs_setLeg hq with rfl | hq
      · exact hnew
      · rw [legs_default] at hq
        cases hq
    · rcases mem_legs_setLeg hq with rfl | hq
      · exact hnew
      · cases hq
  · rw [hpk]
    exact hincr.sublist ((lastN_sublist _ _).map _)
  · intro q hq
    rw [hpk] at hq
    rcases List.mem_append.mp (mem_of_mem_lastN hq) with hq | hq
    · have := h.below q hq
      omega
    · rw [List.mem_singleton.mp hq, hnext]
      show s.nextID < s.nextID + 1
      omega

theorem IdInv_run (m : Int) (ops : List Op) (s : PacketStore)
    (h : runOps (NewPacketStore m) ops = some s) : IdInv (addedMsgs ops) s := by
  induction ops using List.reverseRecOn generalizing s with
  | nil =>
    cases h
    exact IdInv_new m
  | append_singleton ops op ih =>
    obtain ⟨u, hu, hop⟩ := runOps_snoc h
    have hi := ih u hu
    rw [addedMsgs_append]
    cases op with
    | add p => exact IdInv_add hi hop
    | clear =>
      cases hop
      simpa [addedMsgs] using IdInv_clear hi

/-! ## C1: bounded history -/

/-- C1. For every `maxSize = m ≥ 0` and every `k`, after `m + k` calls of `Add` on
`NewPacketStore m` the run returns a store whose `GetAll` has exactly `m` entries: the
last `m` messages handed to `Add`, carrying the IDs `k+1 .. m+k`, newest first (entry
`i` is the message of call number `m + k - i`, with that ID); every retained ID is
above `k`, so the `k` oldest messages are gone. -/
theorem bounded_history (m k : Nat) (msgs : List CapturedPacket)
    (hlen : msgs.length = m + k) :
    ∃ s, addAll (NewPacketStore (m : Int)) msgs = some s ∧
      (GetAll s).length = m ∧
      GetAll s = (stampFrom ((k : Int) + 1) (msgs.drop k)).reverse ∧
      (∀ i, i < m → (GetAll s)[i]? =
        (msgs[m + k - 1 - i]?).map (fun p => { p with ID := (m : Int) + k - i })) ∧
      (∀ q ∈ GetAll s, (k : Int) < q.ID ∧ q.ID ≤ (m : Int) + k) := by
  obtain ⟨s, hs, -, -, hpk⟩ :=
    addAll_packets (NewPacketStore (m : Int)) (Int.natCast_nonneg m) (Nat.zero_le _) msgs
  have hpk2 : s.packets = stampFrom ((k : Int) + 1) (msgs.drop k) := by
    rw [hpk]
    show lastN (m : Int).toNat ([] ++ stampFrom 1 msgs) = _
    rw [List.nil_append, Int.toNat_natCast]
    unfold lastN
    rw [stampFrom_length, hlen, stampFrom_drop]
    have e1 : m + k - m = k := by omega
    have e2 : min k (m + k) = k := by omega
    rw [e1, hlen, e2, add_comm]
  have hl : s.packets.length = m := by
    rw [hpk2, stampFrom_length, List.length_drop]
    omega
  have hget : ∀ i, i < m → (GetAll s)[i]? =
      (msgs[m + k - 1 - i]?).map (fun p => { p with ID := (m : Int) + k - i }) := by
    intro i hi
    unfold GetAll
    rw [List.getElem?_reverse (by omega), hl, hpk2, stampFrom_getElem?, List.getElem?_drop]
    have e1 : k + (m - 1 - i) = m + k - 1 - i := by omega
    have e2 : (k : Int) + 1 + ((m - 1 - i : Nat) : Int) = (m : Int) + k - i := by omega
    rw [e1, e2]
  refine ⟨s, hs, ?_, ?_, hget, ?_⟩
  · unfold GetAll
    rw [List.length_reverse, hl]
  · unfold GetAll
    rw [hpk2]
  · intro q hq
    obtain ⟨i, hi, hqi⟩ := List.getElem_of_mem hq
    have hi2 : i < m := by
      unfold GetAll at hi
      rw [List.length_reverse, hl] at hi
      exact hi
    have h1 := hget i hi2
    rw [List.getElem?_eq_getElem hi, hqi] at h1
    cases hmsg : msgs[m + k - 1 - i]? with
    | none => rw [hmsg] at h1; cases h1
    | some p =>
      rw [hmsg] at h1
      simp only [Option.map_some', Option.some.injEq] at h1
      rw [h1]
      constructor
      · show (k : Int) < (m : Int) + k - i
        omega
      · show (m : Int) + k - i ≤ (m : Int) + k
        omega



/-- Witness of C1 at `m = 1`, `k = 1`: two calls on a store of size one. -/
theorem bounded_history_witness :
    [sampleRequest, sampleResponse].length = 1 + 1 ∧
    ∃ s, addAll (NewPacketStore ((1 : Nat) : Int)) [sampleRequest, sampleResponse] = some s ∧
      (GetAll s).length = 1 ∧
      GetAll s = (stampFrom (((1 : Nat) : Int) + 1)
        ([sampleRequest, sampleResponse].drop 1)).reverse ∧
      (∀ i, i < 1 → (GetAll s)[i]? =
        ([sampleRequest, sampleResponse][1 + 1 - 1 - i]?).map
          (fun p => { p with ID := ((1 : Nat) : Int) + (1 : Nat) - i })) ∧
      (∀ q ∈ GetAll s, ((1 : Nat) : Int) < q.ID ∧ q.ID ≤ ((1 : Nat) : Int) + (1 : Nat)) :=
  ⟨rfl, bounded_history 1 1 [sampleRequest, sampleResponse] rfl⟩

/-! ## C2: identifier assignment -/

/-- C2. For every `m ≥ 0` and every sequence of `Add` and `Clear` calls on
`NewPacketStore m`, the run returns a store `s` such that: `nextID` is one more than the
number of `Add` calls made so far, so the next `Add` (call number `n + 1`) returns and
appends its message with ID `n + 1` (and, when `m > 0`, that message heads `GetAll`);
every message in `GetAll` and every leg in `GetPairs` is the `k`-th message handed to
`Add` carrying ID `k`, whatever evictions or `Clear` calls happened; and the IDs listed
by `GetAll` are strictly decreasing, so no ID occurs twice. -/
theorem id_assignment (m : Int) (hm : 0 ≤ m) (ops : List Op) :
    ∃ s, runOps (NewPacketStore m) ops = some s ∧
      s.nextID = ((addedMsgs ops).length : Int) + 1 ∧
      (∀ p, ∃ t, Add s p = some t ∧
        (tracked s p).packets =
          s.packets ++ [{ p with ID := ((addedMsgs ops).length : Int) + 1 }] ∧
        (0 < m → (GetAll t).head? = some { p with ID := ((addedMsgs ops).length : Int) + 1 })) ∧
      (∀ q ∈ GetAll s, StampedIn (addedMsgs ops) q) ∧
      (∀ pr ∈ GetPairs s, ∀ q ∈ legs pr, StampedIn (addedMsgs ops) q) ∧
      ((GetAll s).map (fun q => q.ID)).Pairwise (fun a b => a > b) := by
  obtain ⟨s, hs, hmax⟩ := runOps_total (NewPacketStore m) hm ops
  have hinv := IdInv_run m ops s hs
  have hmax2 : s.maxSize = m := hmax
  refine ⟨s, hs, hinv.next, ?_, ?_, ?_, ?_⟩
  · intro p
    obtain ⟨t, ht⟩ : ∃ t, Add s p = some t := ⟨_, Add_of_nonneg s p (by omega)⟩
    obtain ⟨-, -, -, hpk⟩ := Add_some_packets ht
    refine ⟨t, ht, ?_, ?_⟩
    · rw [tracked_packets, hinv.next]
    · intro hpos
      unfold GetAll
      rw [hpk, lastN_append_singleton _ (by omega), hinv.next]
      simp
  · intro q hq
    exact hinv.hist q (List.mem_reverse.mp hq)
  · intro pr hpr q hq
    unfold GetPairs at hpr
    obtain ⟨a, -, rfl⟩ := List.mem_map.mp (List.mem_reverse.mp hpr)
    rcases deref_mem_or_default s.heap a with hd | hd
    · exact hinv.heapLegs _ hd q hq
    · rw [hd, legs_default] at hq
      cases hq
  · unfold GetAll
    rw [List.map_reverse, List.pairwise_reverse]
    exact hinv.incr

/-- Witness of C2: a store of size one, two `Add` calls with a `Clear` in between. -/
theorem id_assignment_witness :
    (0 : Int) ≤ 1 ∧
    ∃ s, runOps (NewPacketStore 1) [Op.add sampleRequest, Op.clear, Op.add sampleResponse]
        = some s ∧
      s.nextID = ((addedMsgs [Op.add sampleRequest, Op.clear, Op.add sampleResponse]).length
        : Int) + 1 ∧
      (∀ p, ∃ t, Add s p = some t ∧
        (tracked s p).packets = s.packets ++ [{ p with ID :=
          ((addedMsgs [Op.add sampleRequest, Op.clear, Op.add sampleResponse]).length : Int)
            + 1 }] ∧
        ((0 : Int) < 1 → (GetAll t).head? = some { p with ID :=
          ((addedMsgs [Op.add sampleRequest, Op.clear, Op.add sampleResponse]).length : Int)
            + 1 })) ∧
      (∀ q ∈ GetAll s,
        StampedIn (addedMsgs [Op.add sampleRequest, Op.clear, Op.add sampleResponse]) q) ∧
      (∀ pr ∈ GetPairs s, ∀ q ∈ legs pr,
        StampedIn (addedMsgs [Op.add sampleRequest, Op.clear, Op.add sampleResponse]) q) ∧
      ((GetAll s).map (fun q => q.ID)).Pairwise (fun a b => a > b) :=
  ⟨by decide, id_assignment 1 (by decide)
    [Op.add sampleRequest, Op.clear, Op.add sampleResponse]⟩


/-! ## Pairing invariant -/

theorem legs_setLeg_ne_nil (pr : PacketPair) (p : CapturedPacket) : legs (setLeg pr p) ≠ [] := by
  unfold setLeg legs
  split <;> simp

theorem HasKey_unique {pr : PacketPair} {K K' : String} (h : HasKey pr K) (h' : HasKey pr K') :
    K = K' := by
  obtain ⟨q, hq⟩ := List.exists_mem_of_ne_nil _ h.1
  rw [← h.2 q hq, ← h'.2 q hq]

theorem HasKey_setLeg_of_HasKey {pr : PacketPair} {p : CapturedPacket}
    (h : HasKey pr p.PairKey) : HasKey (setLeg pr p) p.PairKey := by
  refine ⟨legs_setLeg_ne_nil pr p, ?_⟩
  intro q hq
  rcases mem_legs_setLeg hq with rfl | hq
  · rfl
  · exact h.2 q hq

theorem HasKey_freshPair (s : PacketStore) (p : CapturedPacket) :
    HasKey (freshPair s p) p.PairKey := by
  refine ⟨legs_setLeg_ne_nil _ _, ?_⟩
  intro q hq
  rcases mem_legs_setLeg hq with rfl | hq
  · rfl
  · cases hq

theorem oldKey_of_HasKey {pr : PacketPair} {K : String} (h : HasKey pr K) :
    oldKey pr = some K := by
  obtain ⟨hne, hall⟩ := h
  unfold oldKey
  cases hr : pr.Request with
  | some r =>
    simp only
    rw [hall r ((mem_legs pr r).mpr (Or.inl hr))]
  | none =>
    cases hp : pr.Response with
    | some r =>
      simp only
      rw [hall r ((mem_legs pr r).mpr (Or.inr hp))]
    | none =>
      exfalso
      apply hne
      unfold legs
      rw [hr, hp]
      rfl

theorem deleteOld_cons (heap : List PacketPair) (pairs : List (String × Addr)) (a : Addr)
    (rest : List Addr) :
    deleteOld heap pairs (a :: rest) =
      match oldKey (deref heap a) with
      | some k => deleteOld heap (mapDelete pairs k) rest
      | none => deleteOld heap pairs rest := by
  rw [deleteOld]
  unfold oldKey
  cases (deref heap a).Request with
  | some r => rfl
  | none =>
    cases (deref heap a).Response with
    | some r => rfl
    | none => rfl

theorem mapGet_deleteOld_of_none (heap : List PacketPair) (old : List Addr)
    (pairs : List (String × Addr)) (K : String) (h : mapGet pairs K = none) :
    mapGet (deleteOld heap pairs old) K = none := by
  induction old generalizing pairs with
  | nil => exact h
  | cons a rest ih =>
    rw [deleteOld_cons]
    cases oldKey (deref heap a) with
    | none => exact ih pairs h
    | some k =>
      apply ih
      rw [mapGet_mapDelete, h]
      simp

theorem mapGet_deleteOld_of_mem (heap : List PacketPair) (old : List Addr)
    (pairs : List (String × Addr)) (K : String) (a : Addr) (ha : a ∈ old)
    (hk : oldKey (deref heap a) = some K) :
    mapGet (deleteOld heap pairs old) K = none := by
  induction old generalizing pairs with
  | nil => cases ha
  | cons b rest ih =>
    rw [deleteOld_cons]
    rcases List.mem_cons.mp ha with rfl | ha
    · rw [hk]
      apply mapGet_deleteOld_of_none
      rw [mapGet_mapDelete, if_pos rfl]
    · cases oldKey (deref heap b) with
      | none => exact ih pairs ha
      | some k => exact ih _ ha

theorem mapGet_deleteOld_of_not (heap : List PacketPair) (old : List Addr)
    (pairs : List (String × Addr)) (K : String)
    (h : ∀ a ∈ old, oldKey (deref heap a) ≠ some K) :
    mapGet (deleteOld heap pairs old) K = mapGet pairs K := by
  induction old generalizing pairs with
  | nil => rfl
  | cons b rest ih =>
    rw [deleteOld_cons]
    have hb := h b (List.mem_cons_self _ _)
    have hrest : ∀ a ∈ rest, oldKey (deref heap a) ≠ some K :=
      fun a ha => h a (List.mem_cons_of_mem _ ha)
    cases hk : oldKey (deref heap b) with
    | none => exact ih pairs hrest
    | some k =>
      simp only
      rw [ih _ hrest, mapGet_mapDelete, if_neg]
      intro e
      apply hb
      rw [hk, e]

theorem mapGet_deleteOld_some {heap : List PacketPair} {old : List Addr}
    {pairs : List (String × Addr)} {K : String} {a : Addr}
    (h : mapGet (deleteOld heap pairs old) K = some a) :
    mapGet pairs K = some a ∧ ∀ b ∈ old, oldKey (deref heap b) ≠ some K := by
  have hnot : ∀ b ∈ old, oldKey (deref heap b) ≠ some K := by
    intro b hb hk
    rw [mapGet_deleteOld_of_mem heap old pairs K b hb hk] at h
    cases h
  rw [mapGet_deleteOld_of_not heap old pairs K hnot] at h
  exact ⟨h, hnot⟩

theorem mapDelete_sublist (m : List (String × Addr)) (k : String) :
    (mapDelete m k).Sublist m :=
  List.filter_sublist _

theorem deleteOld_sublist (heap : List PacketPair) (old : List Addr)
    (pairs : List (String × Addr)) : (deleteOld heap pairs old).Sublist pairs := by
  induction old generalizing pairs with
  | nil => exact List.Sublist.refl _
  | cons b rest ih =>
    rw [deleteOld_cons]
    cases oldKey (deref heap b) with
    | none => exact ih pairs
    | some k => exact (ih _).trans (mapDelete_sublist pairs k)

theorem mapGet_none_iff (m : List (String × Addr)) (K : String) :
    mapGet m K = none ↔ K ∉ m.map Prod.fst := by
  induction m with
  | nil => simp [mapGet]
  | cons e m ih =>
    obtain ⟨k, v⟩ := e
    simp only [mapGet, List.map_cons, List.mem_cons, not_or]
    by_cases h : k = K
    · simp [h]
    · rw [if_neg h, ih]
      constructor
      · intro hm
        exact ⟨fun e => h e.symm, hm⟩
      · intro hm
        exact hm.2

theorem PairInv_new (m : Int) : PairInv (NewPacketStore m) where
  nodup := List.nodup_nil
  valid := by intro a ha; cases ha
  keyed := by intro K a h; cases h
  covered := by intro a ha; cases ha
  keysNodup := List.nodup_nil
  ids := by intro pr hpr; cases hpr

theorem PairInv_clear {s : PacketStore} (h : PairInv s) : PairInv (Clear s) where
  nodup := List.nodup_nil
  valid := by intro a ha; cases ha
  keyed := by intro K a h; cases h
  covered := by intro a ha; cases ha
  keysNodup := List.nodup_nil
  ids := h.ids

theorem PairInv_tracked {s : PacketStore} (h : PairInv s) (p : CapturedPacket) :
    PairInv (tracked s p) := by
  by_cases hk : p.PairKey = ""
  · rw [tracked_of_empty s p hk]
    exact ⟨h.nodup, h.valid, h.keyed, h.covered, h.keysNodup, h.ids⟩
  · cases hg : mapGet s.pairs p.PairKey with
    | some a =>
      rw [tracked_of_exists s p a hk hg]
      obtain ⟨-, hamem, hakey⟩ := h.keyed _ a hg
      have halt := h.valid a hamem
      refine ⟨h.nodup, ?_, ?_, h.covered, h.keysNodup, ?_⟩
      · intro b hb
        show b < (s.heap.set a _).length
        rw [List.length_set]
        exact h.valid b hb
      · intro K b hKb
        obtain ⟨hK, hbmem, hbkey⟩ := h.keyed K b hKb
        refine ⟨hK, hbmem, ?_⟩
        show HasKey (deref (s.heap.set a _) b) K
        rw [deref_set]
        by_cases hab : a = b
        · subst hab
          rw [if_pos ⟨rfl, halt⟩]
          have e : K = p.PairKey := HasKey_unique hbkey hakey
          rw [e]
          exact HasKey_setLeg_of_HasKey (p := stamped s p) hakey
        · rw [if_neg (fun hc => hab hc.1)]
          exact hbkey
      · intro pr hpr
        rcases List.mem_or_eq_of_mem_set hpr with hpr | rfl
        · exact h.ids pr hpr
        · rw [setLeg_ID]
          rcases deref_mem_or_default s.heap a with hd | hd
          · exact h.ids _ hd
          · exfalso
            have := hakey.1
            rw [hd, legs_default] at this
            exact this rfl
    | none =>
      rw [tracked_of_fresh s p hk hg]
      refine ⟨?_, ?_, ?_, ?_, ?_, ?_⟩
      · show (s.pairList ++ [s.heap.length]).Nodup
        rw [List.nodup_append]
        refine ⟨h.nodup, List.nodup_singleton _, ?_⟩
        intro b hb hb2
        rw [List.mem_singleton] at hb2
        have := h.valid b hb
        rw [hb2] at this
        exact Nat.lt_irrefl _ this
      · intro b hb
        show b < (s.heap ++ [freshPair s p]).length
        rw [List.length_append, List.length_singleton]
        rcases List.mem_append.mp hb with hb | hb
        · exact Nat.lt_succ_of_lt (h.valid b hb)
        · rw [List.mem_singleton.mp hb]
          exact Nat.lt_succ_self _
      · intro K b hKb
        change mapGet (mapSet s.pairs p.PairKey s.heap.length) K = some b at hKb
        rw [mapGet_mapSet] at hKb
        show K ≠ "" ∧ b ∈ s.pairList ++ [s.heap.length] ∧
          HasKey (deref (s.heap ++ [freshPair s p]) b) K
        by_cases hKp : K = p.PairKey
        · rw [if_pos hKp] at hKb
          cases hKb
          rw [hKp, deref_append_length]
          exact ⟨hk, List.mem_append_right _ (List.mem_singleton_self _), HasKey_freshPair s p⟩
        · rw [if_neg hKp] at hKb
          obtain ⟨hK, hbmem, hbkey⟩ := h.keyed K b hKb
          rw [deref_append_lt _ _ _ (h.valid b hbmem)]
          exact ⟨hK, List.mem_append_left _ hbmem, hbkey⟩
      · intro b hb
        show ∃ K, mapGet (mapSet s.pairs p.PairKey s.heap.length) K = some b
        rcases List.mem_append.mp hb with hb | hb
        · obtain ⟨K, hKb⟩ := h.covered b hb
          refine ⟨K, ?_⟩
          rw [mapGet_mapSet, if_neg]
          · exact hKb
          · intro e
            rw [e, hg] at hKb
            cases hKb
        · refine ⟨p.PairKey, ?_⟩
          rw [mapGet_mapSet, if_pos rfl, List.mem_singleton.mp hb]
      · show ((mapSet s.pairs p.PairKey s.heap.length).map Prod.fst).Nodup
        unfold mapSet
        rw [List.map_cons, List.nodup_cons]
        constructor
        · intro hmem
          have hsub := ((mapDelete_sublist s.pairs p.PairKey).map Prod.fst).subset hmem
          exact (mapGet_none_iff _ _).mp hg hsub
        · exact h.keysNodup.sublist ((mapDelete_sublist s.pairs p.PairKey).map Prod.fst)
      · intro pr hpr
        show pr.ID < s.nextPair + 1
        rcases List.mem_append.mp hpr with hpr | hpr
        · have := h.ids pr hpr
          omega
        · rw [List.mem_singleton.mp hpr]
          unfold freshPair
          rw [setLeg_ID]
          show s.nextPair < s.nextPair + 1
          omega

/-- Trimming the pair list to its last `m` entries, with the map entries of the dropped
pairs deleted, keeps the pairing invariant. -/
theorem PairInv_trim {t : PacketStore} (h : PairInv t) (m : Nat)
    (ps : List CapturedPacket) :
    PairInv { t with
      packets := ps
      pairs := deleteOld t.heap t.pairs (t.pairList.take (t.pairList.length - m))
      pairList := lastN m t.pairList } := by
  have hsplit : t.pairList.take (t.pairList.length - m) ++ lastN m t.pairList = t.pairList :=
    List.take_append_drop _ _
  have hdisj : ∀ a, a ∈ t.pairList.take (t.pairList.length - m) → a ∈ lastN m t.pairList →
      False := by
    intro a h1 h2
    have hnd := h.nodup
    rw [← hsplit, List.nodup_append] at hnd
    exact hnd.2.2 h1 h2
  refine ⟨?_, ?_, ?_, ?_, ?_, h.ids⟩
  · exact h.nodup.sublist (lastN_sublist m _)
  · intro a ha
    exact h.valid a (mem_of_mem_lastN ha)
  · intro K a hKa
    obtain ⟨hget, hnot⟩ := mapGet_deleteOld_some hKa
    obtain ⟨hK, hamem, hakey⟩ := h.keyed K a hget
    refine ⟨hK, ?_, hakey⟩
    show a ∈ lastN m t.pairList
    rw [← hsplit] at hamem
    rcases List.mem_append.mp hamem with hold | hkeep
    · exact absurd (oldKey_of_HasKey hakey) (hnot a hold)
    · exact hkeep
  · intro a ha
    have ha' : a ∈ lastN m t.pairList := ha
    obtain ⟨K, hKa⟩ := h.covered a (mem_of_mem_lastN ha')
    refine ⟨K, ?_⟩
    show mapGet (deleteOld t.heap t.pairs _) K = some a
    rw [mapGet_deleteOld_of_not]
    · exact hKa
    · intro b hb hbk
      have hbmem : b ∈ t.pairList := List.mem_of_mem_take hb
      obtain ⟨Kb, hKb⟩ := h.covered b hbmem
      have hbkey := (h.keyed Kb b hKb).2.2
      have e : Kb = K := by
        have := oldKey_of_HasKey hbkey
        rw [hbk] at this
        exact (Option.some.inj this).symm
      rw [e, hKa] at hKb
      cases hKb
      exact hdisj a hb ha'
  · exact h.keysNodup.sublist ((deleteOld_sublist _ _ _).map Prod.fst)

theorem PairInv_add {s t : PacketStore} {p : CapturedPacket} (h : PairInv s)
    (ht : Add s p = some t) : PairInv t ∧ Bounded t := by
  obtain ⟨hm, rfl⟩ := Add_some ht
  refine ⟨PairInv_trim (PairInv_tracked h p) _ _, ?_⟩
  show (lastN s.maxSize.toNat (tracked s p).pairList).length ≤ ((tracked s p).maxSize).toNat
  rw [tracked_maxSize, lastN_length]
  omega

theorem PairInv_runFrom {s t : PacketStore} {ops : List Op} (h : PairInv s) (hb : Bounded s)
    (ht : runOps s ops = some t) : PairInv t ∧ Bounded t := by
  induction ops generalizing s with
  | nil =>
    cases ht
    exact ⟨h, hb⟩
  | cons op ops ih =>
    cases op with
    | add p =>
      change (Add s p).bind (fun u => runOps u ops) = some t at ht
      cases hu : Add s p with
      | none => rw [hu] at ht; cases ht
      | some u =>
        rw [hu] at ht
        obtain ⟨h1, h2⟩ := PairInv_add h hu
        exact ih h1 h2 ht
    | clear =>
      change runOps (Clear s) ops = some t at ht
      exact ih (PairInv_clear h) (Nat.zero_le _) ht

theorem PairInv_of_Reachable {s : PacketStore} (h : Reachable s) : PairInv s ∧ Bounded s := by
  obtain ⟨m, ops, hrun⟩ := h
  exact PairInv_runFrom (PairInv_new m) (Nat.zero_le _) hrun

/-! ## Frame facts for the pairing map and the counters -/

theorem tracked_pairs_of_ne (s : PacketStore) (p : CapturedPacket) (K : String)
    (hne : K ≠ p.PairKey) : mapGet (tracked s p).pairs K = mapGet s.pairs K := by
  by_cases hk : p.PairKey = ""
  · rw [tracked_of_empty s p hk]
  · cases hg : mapGet s.pairs p.PairKey with
    | some a => rw [tracked_of_exists s p a hk hg]
    | none =>
      rw [tracked_of_fresh s p hk hg]
      show mapGet (mapSet s.pairs p.PairKey s.heap.length) K = _
      rw [mapGet_mapSet, if_neg hne]

theorem tracked_pairs_of_some (s : PacketStore) (p : CapturedPacket) (K : String) (a : Addr)
    (h : mapGet s.pairs K = some a) : mapGet (tracked s p).pairs K = some a := by
  by_cases hk : p.PairKey = ""
  · rw [tracked_of_empty s p hk]
    exact h
  · cases hg : mapGet s.pairs p.PairKey with
    | some b =>
      rw [tracked_of_exists s p b hk hg]
      exact h
    | none =>
      rw [tracked_pairs_of_ne s p K]
      · exact h
      · intro e
        rw [e, hg] at h
        cases h

theorem tracked_nextPair_le (s : PacketStore) (p : CapturedPacket) :
    s.nextPair ≤ (tracked s p).nextPair := by
  by_cases hk : p.PairKey = ""
  · rw [tracked_of_empty s p hk]
  · cases hg : mapGet s.pairs p.PairKey with
    | some a => rw [tracked_of_exists s p a hk hg]
    | none =>
      rw [tracked_of_fresh s p hk hg]
      show s.nextPair ≤ s.nextPair + 1
      omega

theorem Add_mapGet_none {s t : PacketStore} {p : CapturedPacket} {K : String}
    (ht : Add s p = some t) (hne : p.PairKey ≠ K) (h : mapGet s.pairs K = none) :
    mapGet t.pairs K = none := by
  obtain ⟨-, rfl⟩ := Add_some ht
  apply mapGet_deleteOld_of_none
  rw [tracked_pairs_of_ne s p K (fun e => hne e.symm)]
  exact h

theorem runOps_mapGet_none {s u : PacketStore} {ops : List Op} {K : String}
    (hu : runOps s ops = some u) (hne : ∀ x ∈ addedMsgs ops, x.PairKey ≠ K)
    (h : mapGet s.pairs K = none) : mapGet u.pairs K = none := by
  induction ops generalizing s with
  | nil =>
    cases hu
    exact h
  | cons op ops ih =>
    cases op with
    | add p =>
      change (Add s p).bind (fun t => runOps t ops) = some u at hu
      cases ht : Add s p with
      | none => rw [ht] at hu; cases hu
      | some t =>
        rw [ht] at hu
        refine ih hu (fun x hx => hne x (List.mem_cons_of_mem _ hx)) ?_
        exact Add_mapGet_none ht (hne p (List.mem_cons_self _ _)) h
    | clear =>
      change runOps (Clear s) ops = some u at hu
      exact ih hu hne rfl

theorem runOps_counters_le {s u : PacketStore} {ops : List Op} (hu : runOps s ops = some u) :
    s.nextID ≤ u.nextID ∧ s.nextPair ≤ u.nextPair := by
  induction ops generalizing s with
  | nil =>
    cases hu
    exact ⟨le_refl _, le_refl _⟩
  | cons op ops ih =>
    cases op with
    | add p =>
      change (Add s p).bind (fun t => runOps t ops) = some u at hu
      cases ht : Add s p with
      | none => rw [ht] at hu; cases hu
      | some t =>
        rw [ht] at hu
        obtain ⟨h1, h2⟩ := ih hu
        have h3 := (Add_some_packets ht).2.2.1
        have h4 := (Add_some_heap ht).2
        have h5 := tracked_nextPair_le s p
        constructor <;> omega
    | clear =>
      change runOps (Clear s) ops = some u at hu
      have e := ih hu
      exact e

/-! ## Creation of a pair -/

theorem lastN_map {α β : Type} (f : α → β) (k : Nat) (xs : List α) :
    lastN k (xs.map f) = (lastN k xs).map f := by
  unfold lastN
  rw [List.length_map, List.map_drop]

theorem reverse_lastN {α : Type} (k : Nat) (xs : List α) :
    (lastN k xs).reverse = xs.reverse.take k := by
  unfold lastN
  by_cases h : k ≤ xs.length
  · rw [List.reverse_drop]
    congr 1
    omega
  · have e : xs.length - k = 0 := by omega
    rw [e, List.drop_zero, List.take_of_length_le]
    rw [List.length_reverse]
    omega

/-- The workhorse for pair creation: on a consistent store with `maxSize ≥ 1`, `Add` of
a message whose non-empty PairKey has no map entry returns; the new pair is allocated,
registered under the key, and listed first by `GetPairs`, in front of the newest
`maxSize - 1` pairs of before. -/
theorem Add_creates (s : PacketStore) (p : CapturedPacket) (hinv : PairInv s)
    (hm : 1 ≤ s.maxSize) (hk : p.PairKey ≠ "") (hg : mapGet s.pairs p.PairKey = none) :
    ∃ t, Add s p = some t ∧
      t.heap = s.heap ++ [freshPair s p] ∧
      t.pairList = lastN (s.maxSize.toNat - 1) s.pairList ++ [s.heap.length] ∧
      mapGet t.pairs p.PairKey = some s.heap.length ∧
      t.nextPair = s.nextPair + 1 ∧
      GetPairs t = freshPair s p :: (GetPairs s).take (s.maxSize.toNat - 1) := by
  have hm0 : 0 ≤ s.maxSize := by omega
  have hmn : 0 < s.maxSize.toNat := by omega
  obtain ⟨t, ht⟩ : ∃ t, Add s p = some t := ⟨_, Add_of_nonneg s p hm0⟩
  have hinvt := (PairInv_add hinv ht).1
  have hinvtr := PairInv_tracked hinv p
  obtain ⟨-, e⟩ := Add_some ht
  have htr := tracked_of_fresh s p hk hg
  have hheap : t.heap = s.heap ++ [freshPair s p] := by rw [e, htr]
  have hlist : t.pairList = lastN (s.maxSize.toNat - 1) s.pairList ++ [s.heap.length] := by
    rw [e]
    show lastN s.maxSize.toNat (tracked s p).pairList = _
    rw [htr]
    exact lastN_append_singleton _ hmn _ _
  have hpairs : t.pairs = deleteOld (tracked s p).heap (tracked s p).pairs
      ((tracked s p).pairList.take ((tracked s p).pairList.length - s.maxSize.toNat)) := by
    rw [e]
  have hnew : s.heap.length ∈ t.pairList := by
    rw [hlist]
    exact List.mem_append_right _ (List.mem_singleton_self _)
  have hreg : mapGet t.pairs p.PairKey = some s.heap.length := by
    obtain ⟨K, hK⟩ := hinvt.covered _ hnew
    have hK2 := hK
    rw [hpairs] at hK2
    have hK3 := (mapGet_deleteOld_some hK2).1
    by_cases hKp : K = p.PairKey
    · rw [← hKp]
      exact hK
    · exfalso
      rw [tracked_pairs_of_ne s p K hKp] at hK3
      have := hinv.valid _ (hinv.keyed K _ hK3).2.1
      exact Nat.lt_irrefl _ this
  refine ⟨t, ht, hheap, hlist, hreg, ?_, ?_⟩
  · rw [e, htr]
  · unfold GetPairs
    rw [hlist, hheap, List.map_append, List.reverse_append, List.map_singleton,
      List.reverse_singleton, List.singleton_append, deref_append_length]
    congr 1
    rw [← reverse_lastN, lastN_map]
    congr 1
    apply List.map_congr_left
    intro b hb
    exact deref_append_lt _ _ _ (hinv.valid b (mem_of_mem_lastN hb))

theorem legs_freshPair (s : PacketStore) (p : CapturedPacket) :
    legs (freshPair s p) = [stamped s p] := by
  unfold freshPair setLeg legs
  split <;> rfl

theorem freshPair_ID (s : PacketStore) (p : CapturedPacket) :
    (freshPair s p).ID = s.nextPair := by
  unfold freshPair
  rw [setLeg_ID]

theorem freshPair_Timestamp (s : PacketStore) (p : CapturedPacket) :
    (freshPair s p).Timestamp = p.Timestamp := by
  unfold freshPair
  rw [setLeg_Timestamp]

theorem tracked_pairList_mem {s : PacketStore} (p : CapturedPacket) {a : Addr}
    (h : a ∈ s.pairList) : a ∈ (tracked s p).pairList := by
  by_cases hk : p.PairKey = ""
  · rw [tracked_of_empty s p hk]
    exact h
  · cases hg : mapGet s.pairs p.PairKey with
    | some b =>
      rw [tracked_of_exists s p b hk hg]
      exact h
    | none =>
      rw [tracked_of_fresh s p hk hg]
      exact List.mem_append_left _ h

theorem StampedIn_ID_le {msgs : List CapturedPacket} {q : CapturedPacket}
    (h : StampedIn msgs q) : q.ID ≤ (msgs.length : Int) := by
  obtain ⟨i, p0, hi, rfl⟩ := h
  have hlt : i < msgs.length := by
    by_contra hge
    rw [List.getElem?_eq_none (Nat.le_of_not_lt hge)] at hi
    cases hi
  show (i : Int) + 1 ≤ (msgs.length : Int)
  omega

theorem deref_mem_of_lt {heap : List PacketPair} {a : Addr} (h : a < heap.length) :
    deref heap a ∈ heap := by
  unfold deref
  rw [List.getD_eq_getElem?_getD, List.getElem?_eq_getElem h]
  exact List.getElem_mem h

/-! ## C3: pairing correctness -/

/-- When the pair list of the tracked state fits in `maxSize`, `Add` trims only the
flat history. -/
theorem Add_of_room (s : PacketStore) (p : CapturedPacket) (hm : 0 ≤ s.maxSize)
    (hroom : (tracked s p).pairList.length ≤ s.maxSize.toNat) :
    Add s p = some { tracked s p with
      packets := lastN s.maxSize.toNat (tracked s p).packets } := by
  rw [Add_of_nonneg s p hm]
  have h0 : (tracked s p).pairList.length - s.maxSize.toNat = 0 := by omega
  rw [h0, List.take_zero, lastN_of_le _ _ hroom]
  rfl

theorem Add_fresh (s : PacketStore) (p : CapturedPacket) (hm : 0 ≤ s.maxSize)
    (hk : p.PairKey ≠ "") (hg : mapGet s.pairs p.PairKey = none)
    (hroom : s.pairList.length < s.maxSize.toNat) :
    Add s p = some { s with
      nextID := s.nextID + 1
      packets := lastN s.maxSize.toNat (s.packets ++ [stamped s p])
      nextPair := s.nextPair + 1
      heap := s.heap ++ [freshPair s p]
      pairs := mapSet s.pairs p.PairKey s.heap.length
      pairList := s.pairList ++ [s.heap.length] } := by
  have ht := tracked_of_fresh s p hk hg
  have hroom2 : (tracked s p).pairList.length ≤ s.maxSize.toNat := by
    rw [ht]
    simp only [List.length_append, List.length_singleton]
    omega
  rw [Add_of_room s p hm hroom2, ht]

theorem Add_exists (s : PacketStore) (p : CapturedPacket) (a : Addr) (hm : 0 ≤ s.maxSize)
    (hk : p.PairKey ≠ "") (hg : mapGet s.pairs p.PairKey = some a)
    (hroom : s.pairList.length ≤ s.maxSize.toNat) :
    Add s p = some { s with
      nextID := s.nextID + 1
      packets := lastN s.maxSize.toNat (s.packets ++ [stamped s p])
      heap := s.heap.set a (setLeg (deref s.heap a) (stamped s p)) } := by
  have ht := tracked_of_exists s p a hk hg
  have hroom2 : (tracked s p).pairList.length ≤ s.maxSize.toNat := by
    rw [ht]
    exact hroom
  rw [Add_of_room s p hm hroom2, ht]

theorem Add_empty (s : PacketStore) (p : CapturedPacket) (hm : 0 ≤ s.maxSize)
    (hk : p.PairKey = "") (hroom : s.pairList.length ≤ s.maxSize.toNat) :
    Add s p = some { s with
      nextID := s.nextID + 1
      packets := lastN s.maxSize.toNat (s.packets ++ [stamped s p]) } := by
  have ht := tracked_of_empty s p hk
  have hroom2 : (tracked s p).pairList.length ≤ s.maxSize.toNat := by
    rw [ht]
    exact hroom
  rw [Add_of_room s p hm hroom2, ht]

/-- C3. On `NewPacketStore m` with `m ≥ 1`: `Add` of a request `r` with a non-empty
PairKey returns, and `GetPairs` is then exactly one pair, with id 1, the timestamp of
`r`, the request leg `r` (stamped with ID 1) and no response leg; a following `Add` of
a response `q` with the same PairKey returns, and `GetPairs` is then exactly one pair,
with id 1, both legs set, the response leg being `q` (stamped with ID 2) and so keeping
the StatusCode of `q`. -/
theorem pairing_correctness (m : Int) (hm : 1 ≤ m) (r q : CapturedPacket)
    (hr : r.Typ = PacketRequest) (hq : q.Typ = PacketResponse)
    (hk : r.PairKey ≠ "") (hkq : q.PairKey = r.PairKey) :
    ∃ s1 s2, Add (NewPacketStore m) r = some s1 ∧
      GetPairs s1 =
        [{ ID := 1, Timestamp := r.Timestamp, Request := some { r with ID := 1 },
           Response := none }] ∧
      Add s1 q = some s2 ∧
      GetPairs s2 =
        [{ ID := 1, Timestamp := r.Timestamp, Request := some { r with ID := 1 },
           Response := some { q with ID := 2 } }] ∧
      (∀ pr ∈ GetPairs s2, ∃ resp, pr.Response = some resp ∧
        resp.StatusCode = q.StatusCode) := by
  have hm1 : 1 ≤ m.toNat := by omega
  have hqr : ¬ q.Typ = PacketRequest := by
    rw [hq]
    decide
  have h1 := Add_fresh (NewPacketStore m) r (by show 0 ≤ m; omega) hk rfl
    (by show 0 < m.toNat; omega)
  obtain ⟨s1, hs1⟩ : ∃ s1, Add (NewPacketStore m) r = some s1 := ⟨_, h1⟩
  have e1 : s1 = _ := Option.some.inj (hs1.symm.trans h1)
  have hheap1 : s1.heap =
      [{ ID := 1, Timestamp := r.Timestamp, Request := some { r with ID := 1 },
         Response := none }] := by
    rw [e1]
    show [] ++ [freshPair (NewPacketStore m) r] = _
    have hr2 : (stamped (NewPacketStore m) r).Typ = PacketRequest := hr
    unfold freshPair setLeg
    rw [if_pos hr2]
    rfl
  have hlist1 : s1.pairList = [0] := by rw [e1]; rfl
  have hpairs1 : s1.pairs = [(r.PairKey, 0)] := by rw [e1]; rfl
  have hmax1 : s1.maxSize = m := by rw [e1]; rfl
  have hnext1 : s1.nextID = 2 := by rw [e1]; rfl
  have hg2 : mapGet s1.pairs q.PairKey = some 0 := by
    rw [hpairs1, hkq]
    simp [mapGet]
  have h2 := Add_exists s1 q 0 (by omega) (by rw [hkq]; exact hk) hg2
    (by rw [hlist1, hmax1]; exact hm1)
  have hst2 : stamped s1 q = { q with ID := 2 } := by
    rw [stamped_eq, hnext1]
  have hG2 : ∀ s2, Add s1 q = some s2 → GetPairs s2 =
      [{ ID := 1, Timestamp := r.Timestamp, Request := some { r with ID := 1 },
         Response := some { q with ID := 2 } }] := by
    intro s2 hs2
    have e2 : s2 = _ := Option.some.inj (hs2.symm.trans h2)
    rw [e2]
    show ((s1.pairList.map (deref (s1.heap.set 0 (setLeg (deref s1.heap 0) (stamped s1 q))))).reverse) = _
    rw [hlist1, hheap1, hst2]
    simp [deref, setLeg, hqr]
  refine ⟨s1, _, hs1, ?_, h2, hG2 _ h2, ?_⟩
  · unfold GetPairs
    rw [hlist1, hheap1]
    rfl
  · intro pr hpr
    rw [hG2 _ h2] at hpr
    rw [List.mem_singleton.mp hpr]
    exact ⟨_, rfl, rfl⟩

/-- Witness of C3: the scenario of the specification (`GET /a` then `200`, key `k1`). -/
theorem pairing_correctness_witness :
    (1 : Int) ≤ 1 ∧ sampleRequest.Typ = PacketRequest ∧ sampleResponse.Typ = PacketResponse ∧
    sampleRequest.PairKey ≠ "" ∧ sampleResponse.PairKey = sampleRequest.PairKey ∧
    ∃ s1 s2, Add (NewPacketStore 1) sampleRequest = some s1 ∧
      GetPairs s1 =
        [{ ID := 1, Timestamp := sampleRequest.Timestamp,
           Request := some { sampleRequest with ID := 1 }, Response := none }] ∧
      Add s1 sampleResponse = some s2 ∧
      GetPairs s2 =
        [{ ID := 1, Timestamp := sampleRequest.Timestamp,
           Request := some { sampleRequest with ID := 1 },
           Response := some { sampleResponse with ID := 2 } }] ∧
      (∀ pr ∈ GetPairs s2, ∃ resp, pr.Response = some resp ∧
        resp.StatusCode = sampleResponse.StatusCode) :=
  ⟨by decide, rfl, rfl, by decide, rfl,
    pairing_correctness 1 (by decide) sampleRequest sampleResponse rfl rfl (by decide) rfl⟩


/-! ## C4: eviction clears the pairing map -/

/-- C4. Let `s` be reachable from `NewPacketStore m`, `m ≥ 1`, and let `Add s p` return
`t`.  (1) Every pair this call evicts from the pair list (in the list of `s`, not in
the list of `t`) is registered in the map of `s` under a key `K` which is the PairKey of
its legs, and `K` is not a key of the map of `t`.  (2) Every map entry of `s` whose pair
stays in the list is still there in `t`: no other key is removed.  (3) For an evicted
pair with key `K`, after any further calls that do not `Add` a message with PairKey `K`,
an `Add` of a message `q` with PairKey `K` returns and creates a new pair: it is the
first pair of `GetPairs` and the map entry of `K`; its id is the current `nextPair`,
which is above the id of the evicted pair and of every retained pair; its timestamp is
that of `q`; its only leg is the stamped `q`, which is no leg of the evicted pair. -/
theorem eviction_clears_map (m : Int) (hm : 1 ≤ m) (ops : List Op) (s t : PacketStore)
    (p : CapturedPacket) (hs : runOps (NewPacketStore m) ops = some s)
    (ht : Add s p = some t) :
    (∀ a ∈ s.pairList, a ∉ t.pairList →
      ∃ K, mapGet s.pairs K = some a ∧ HasKey (deref s.heap a) K ∧
        mapGet t.pairs K = none) ∧
    (∀ K a, mapGet s.pairs K = some a → a ∈ t.pairList → mapGet t.pairs K = some a) ∧
    (∀ a ∈ s.pairList, a ∉ t.pairList → ∀ K, mapGet s.pairs K = some a →
      ∀ (ops2 : List Op) (u : PacketStore) (q : CapturedPacket),
        runOps t ops2 = some u → (∀ x ∈ addedMsgs ops2, x.PairKey ≠ K) → q.PairKey = K →
        ∃ v, Add u q = some v ∧
          (GetPairs v).head? = some (freshPair u q) ∧
          mapGet v.pairs K = some u.heap.length ∧
          deref v.heap u.heap.length = freshPair u q ∧
          (freshPair u q).ID = u.nextPair ∧
          (deref s.heap a).ID < u.nextPair ∧
          (∀ pr ∈ GetPairs u, pr.ID < u.nextPair) ∧
          (freshPair u q).Timestamp = q.Timestamp ∧
          legs (freshPair u q) = [{ q with ID := u.nextID }] ∧
          (∀ x ∈ legs (deref s.heap a), x ∉ legs (freshPair u q))) := by
  obtain ⟨hinv, hbnd⟩ := PairInv_of_Reachable ⟨m, ops, hs⟩
  have hidinv := IdInv_run m ops s hs
  have hmax : s.maxSize = m := runOps_maxSize hs
  obtain ⟨hinvt, hbndt⟩ := PairInv_add hinv ht
  have hinvtr := PairInv_tracked hinv p
  obtain ⟨-, e⟩ := Add_some ht
  have hpairs : t.pairs = deleteOld (tracked s p).heap (tracked s p).pairs
      ((tracked s p).pairList.take ((tracked s p).pairList.length - s.maxSize.toNat)) := by
    rw [e]
  have hlist : t.pairList = lastN s.maxSize.toNat (tracked s p).pairList := by
    rw [e]
  have hsplit : (tracked s p).pairList.take ((tracked s p).pairList.length - s.maxSize.toNat)
      ++ lastN s.maxSize.toNat (tracked s p).pairList = (tracked s p).pairList :=
    List.take_append_drop _ _
  -- (1)
  have h1 : ∀ a ∈ s.pairList, a ∉ t.pairList →
      ∃ K, mapGet s.pairs K = some a ∧ HasKey (deref s.heap a) K ∧
        mapGet t.pairs K = none := by
    intro a ha hna
    obtain ⟨K, hK⟩ := hinv.covered a ha
    refine ⟨K, hK, (hinv.keyed K a hK).2.2, ?_⟩
    have hatr : a ∈ (tracked s p).pairList := tracked_pairList_mem p ha
    rw [← hsplit] at hatr
    rcases List.mem_append.mp hatr with hold | hkeep
    · rw [hpairs]
      apply mapGet_deleteOld_of_mem _ _ _ K a hold
      exact oldKey_of_HasKey (hinvtr.keyed K a (tracked_pairs_of_some s p K a hK)).2.2
    · rw [← hlist] at hkeep
      exact absurd hkeep hna
  -- (2)
  have h2 : ∀ K a, mapGet s.pairs K = some a → a ∈ t.pairList →
      mapGet t.pairs K = some a := by
    intro K a hK hat
    obtain ⟨K', hK'⟩ := hinvt.covered a hat
    have hK'2 := hK'
    rw [hpairs] at hK'2
    have hk1 := (hinvtr.keyed K' a (mapGet_deleteOld_some hK'2).1).2.2
    have hk2 := (hinvtr.keyed K a (tracked_pairs_of_some s p K a hK)).2.2
    rw [HasKey_unique hk2 hk1]
    exact hK'
  refine ⟨h1, h2, ?_⟩
  -- (3)
  intro a ha hna K hK ops2 u q hu hne hq
  obtain ⟨K0, hK0, hkey0, hnone0⟩ := h1 a ha hna
  obtain ⟨hKne, -, hkey⟩ := hinv.keyed K a hK
  have eK : K0 = K := HasKey_unique hkey0 hkey
  rw [eK] at hnone0
  have hunone : mapGet u.pairs K = none := runOps_mapGet_none hu hne hnone0
  obtain ⟨hinvu, -⟩ := PairInv_runFrom hinvt hbndt hu
  have hmaxt : t.maxSize = m := by rw [(Add_some_packets ht).2.1, hmax]
  have hmaxu : u.maxSize = m := by rw [runOps_maxSize hu, hmaxt]
  obtain ⟨v, hv, hvheap, -, hvreg, -, hvget⟩ :=
    Add_creates u q hinvu (by omega) (by rw [hq]; exact hKne) (by rw [hq]; exact hunone)
  obtain ⟨hle1, hle2⟩ := runOps_counters_le hu
  have hnt : t.nextID = s.nextID + 1 := (Add_some_packets ht).2.2.1
  have hpt : s.nextPair ≤ t.nextPair := by
    rw [(Add_some_heap ht).2]
    exact tracked_nextPair_le s p
  have hamem : deref s.heap a ∈ s.heap := deref_mem_of_lt (hinv.valid a ha)
  refine ⟨v, hv, ?_, ?_, ?_, freshPair_ID u q, ?_, ?_, freshPair_Timestamp u q,
    legs_freshPair u q, ?_⟩
  · rw [hvget]
    rfl
  · rw [← hq]
    exact hvreg
  · rw [hvheap, deref_append_length]
  · have := hinv.ids _ hamem
    omega
  · intro pr hpr
    unfold GetPairs at hpr
    obtain ⟨b, hb, rfl⟩ := List.mem_map.mp (List.mem_reverse.mp hpr)
    exact hinvu.ids _ (deref_mem_of_lt (hinvu.valid b hb))
  · intro x hx hx2
    rw [legs_freshPair, List.mem_singleton] at hx2
    have hle := StampedIn_ID_le (hidinv.heapLegs _ hamem x hx)
    have hn := hidinv.next
    rw [hx2] at hle
    have : (stamped u q).ID = u.nextID := rfl
    omega


/-- Witness of C4: a store of size one holding the pair of `k1`; `Add` of a message
with key `k2` evicts that pair. -/
theorem eviction_clears_map_witness :
    (1 : Int) ≤ 1 ∧
    runOps (NewPacketStore 1) [Op.add sampleRequest] = some storeAfterFirst ∧
    Add storeAfterFirst sampleRequest2 = some storeAfterSecond ∧
    (0 ∈ storeAfterFirst.pairList ∧ 0 ∉ storeAfterSecond.pairList) ∧
    (∀ a ∈ storeAfterFirst.pairList, a ∉ storeAfterSecond.pairList →
      ∃ K, mapGet storeAfterFirst.pairs K = some a ∧
        HasKey (deref storeAfterFirst.heap a) K ∧
        mapGet storeAfterSecond.pairs K = none) ∧
    (∀ K a, mapGet storeAfterFirst.pairs K = some a → a ∈ storeAfterSecond.pairList →
      mapGet storeAfterSecond.pairs K = some a) ∧
    (∀ a ∈ storeAfterFirst.pairList, a ∉ storeAfterSecond.pairList →
      ∀ K, mapGet storeAfterFirst.pairs K = some a →
      ∀ (ops2 : List Op) (u : PacketStore) (q : CapturedPacket),
        runOps storeAfterSecond ops2 = some u → (∀ x ∈ addedMsgs ops2, x.PairKey ≠ K) →
        q.PairKey = K →
        ∃ v, Add u q = some v ∧
          (GetPairs v).head? = some (freshPair u q) ∧
          mapGet v.pairs K = some u.heap.length ∧
          deref v.heap u.heap.length = freshPair u q ∧
          (freshPair u q).ID = u.nextPair ∧
          (deref storeAfterFirst.heap a).ID < u.nextPair ∧
          (∀ pr ∈ GetPairs u, pr.ID < u.nextPair) ∧
          (freshPair u q).Timestamp = q.Timestamp ∧
          legs (freshPair u q) = [{ q with ID := u.nextID }] ∧
          (∀ x ∈ legs (deref storeAfterFirst.heap a), x ∉ legs (freshPair u q))) :=
  ⟨by decide, by decide, by decide, by decide,
    eviction_clears_map 1 (by decide) [Op.add sampleRequest] storeAfterFirst storeAfterSecond
      sampleRequest2 (by decide) (by decide)⟩


/-! ## C5: pair creation -/

/-- C5, counterexample.  The claim allows any string as PairKey, the empty one
included.  On `NewPacketStore 1` (maxSize 1, empty map, so the empty key has no entry)
`Add` of a message with an empty PairKey returns a store with no pair at all: nothing
is created, registered or listed. -/
theorem pair_creation_counterexample :
    (1 : Int) ≤ (NewPacketStore 1).maxSize ∧
    mapGet (NewPacketStore 1).pairs sampleNoKey.PairKey = none ∧
    Add (NewPacketStore 1) sampleNoKey = some storeAfterNoKey ∧
    GetPairs storeAfterNoKey = [] ∧
    mapGet storeAfterNoKey.pairs sampleNoKey.PairKey = none ∧
    storeAfterNoKey.nextPair = (NewPacketStore 1).nextPair := by
  decide

/-- C5, amended.  For every reachable store `s` with `maxSize ≥ 1` and every message
`p` whose PairKey is non-empty and has no entry in the pairing map, `Add` returns and
creates one new pair: `GetPairs` lists it first (newest), followed by the newest
`maxSize - 1` pairs of before; the map entry of the PairKey is the new pair; its id is
`nextPair` (which is then incremented), its timestamp is that of `p`, its leg of the
kind of `p` (request if `p` is a request, response otherwise) is `p` with its assigned
ID, and its other leg is absent. -/
theorem pair_creation (s : PacketStore) (p : CapturedPacket) (hs : Reachable s)
    (hm : 1 ≤ s.maxSize) (hk : p.PairKey ≠ "") (hg : mapGet s.pairs p.PairKey = none) :
    ∃ t new a, Add s p = some t ∧
      GetPairs t = new :: (GetPairs s).take (s.maxSize.toNat - 1) ∧
      mapGet t.pairs p.PairKey = some a ∧ deref t.heap a = new ∧
      t.pairList.getLast? = some a ∧
      new.ID = s.nextPair ∧ t.nextPair = s.nextPair + 1 ∧
      new.Timestamp = p.Timestamp ∧
      (p.Typ = PacketRequest →
        new.Request = some { p with ID := s.nextID } ∧ new.Response = none) ∧
      (p.Typ ≠ PacketRequest →
        new.Response = some { p with ID := s.nextID } ∧ new.Request = none) := by
  obtain ⟨hinv, -⟩ := PairInv_of_Reachable hs
  obtain ⟨t, ht, hheap, hlist, hreg, hnp, hget⟩ := Add_creates s p hinv hm hk hg
  refine ⟨t, freshPair s p, s.heap.length, ht, hget, hreg, ?_, ?_, freshPair_ID s p, hnp,
    freshPair_Timestamp s p, ?_, ?_⟩
  · rw [hheap, deref_append_length]
  · rw [hlist]
    simp
  · intro hreq
    have hreq2 : (stamped s p).Typ = PacketRequest := hreq
    unfold freshPair setLeg
    rw [if_pos hreq2]
    exact ⟨rfl, rfl⟩
  · intro hreq
    have hreq2 : ¬ (stamped s p).Typ = PacketRequest := hreq
    unfold freshPair setLeg
    rw [if_neg hreq2]
    exact ⟨rfl, rfl⟩

/-- Witness of C5 (amended): a second flow on a store of size one. -/
theorem pair_creation_witness :
    Reachable storeAfterFirst ∧ (1 : Int) ≤ storeAfterFirst.maxSize ∧
    sampleRequest2.PairKey ≠ "" ∧
    mapGet storeAfterFirst.pairs sampleRequest2.PairKey = none ∧
    ∃ t new a, Add storeAfterFirst sampleRequest2 = some t ∧
      GetPairs t = new :: (GetPairs storeAfterFirst).take (storeAfterFirst.maxSize.toNat - 1) ∧
      mapGet t.pairs sampleRequest2.PairKey = some a ∧ deref t.heap a = new ∧
      t.pairList.getLast? = some a ∧
      new.ID = storeAfterFirst.nextPair ∧ t.nextPair = storeAfterFirst.nextPair + 1 ∧
      new.Timestamp = sampleRequest2.Timestamp ∧
      (sampleRequest2.Typ = PacketRequest →
        new.Request = some { sampleRequest2 with ID := storeAfterFirst.nextID } ∧
        new.Response = none) ∧
      (sampleRequest2.Typ ≠ PacketRequest →
        new.Response = some { sampleRequest2 with ID := storeAfterFirst.nextID } ∧
        new.Request = none) :=
  ⟨⟨1, [Op.add sampleRequest], by decide⟩, by decide, by decide, by decide,
    pair_creation storeAfterFirst sampleRequest2 ⟨1, [Op.add sampleRequest], by decide⟩
      (by decide) (by decide) (by decide)⟩

/-! ## C6: pair completion -/

/-- C6. For every reachable store `s` and every message `p` whose PairKey has a pair
(at address `a`) in the pairing map, `Add` returns; the map, the pair list (number and
order of pairs) and `nextPair` are unchanged; every other pair is unchanged; the pair
at `a` keeps its id and timestamp, and its leg of the kind of `p` (request if `p` is a
request; response if `p` is a response, or anything else) becomes `p` with its newly
assigned ID, whatever that leg held, while its other leg is unchanged.  `GetPairs`
differs only in that pair. -/
theorem pair_completion (s : PacketStore) (p : CapturedPacket) (a : Addr) (hs : Reachable s)
    (hg : mapGet s.pairs p.PairKey = some a) :
    ∃ t, Add s p = some t ∧
      t.pairs = s.pairs ∧ t.pairList = s.pairList ∧ t.nextPair = s.nextPair ∧
      (∀ b, b ≠ a → deref t.heap b = deref s.heap b) ∧
      (deref t.heap a).ID = (deref s.heap a).ID ∧
      (deref t.heap a).Timestamp = (deref s.heap a).Timestamp ∧
      (p.Typ = PacketRequest →
        (deref t.heap a).Request = some { p with ID := s.nextID } ∧
        (deref t.heap a).Response = (deref s.heap a).Response) ∧
      (p.Typ ≠ PacketRequest →
        (deref t.heap a).Response = some { p with ID := s.nextID } ∧
        (deref t.heap a).Request = (deref s.heap a).Request) ∧
      (GetPairs t).length = (GetPairs s).length ∧
      GetPairs t = (s.pairList.map (fun b => deref t.heap b)).reverse := by
  obtain ⟨hinv, hbnd⟩ := PairInv_of_Reachable hs
  obtain ⟨hk, hamem, -⟩ := hinv.keyed _ a hg
  have halt := hinv.valid a hamem
  have hpos : 0 < s.pairList.length := List.length_pos_of_mem hamem
  have hm : 0 ≤ s.maxSize := by
    unfold Bounded at hbnd
    omega
  have hadd := Add_exists s p a hm hk hg hbnd
  refine ⟨_, hadd, rfl, rfl, rfl, ?_, ?_, ?_, ?_, ?_, ?_, rfl⟩
  · intro b hb
    show deref (s.heap.set a _) b = _
    rw [deref_set, if_neg (fun hc => hb hc.1.symm)]
  · show (deref (s.heap.set a _) a).ID = _
    rw [deref_set, if_pos ⟨rfl, halt⟩, setLeg_ID]
  · show (deref (s.heap.set a _) a).Timestamp = _
    rw [deref_set, if_pos ⟨rfl, halt⟩, setLeg_Timestamp]
  · intro hreq
    have hreq2 : (stamped s p).Typ = PacketRequest := hreq
    show (deref (s.heap.set a _) a).Request = _ ∧ (deref (s.heap.set a _) a).Response = _
    rw [deref_set, if_pos ⟨rfl, halt⟩]
    unfold setLeg
    rw [if_pos hreq2]
    exact ⟨rfl, rfl⟩
  · intro hreq
    have hreq2 : ¬ (stamped s p).Typ = PacketRequest := hreq
    show (deref (s.heap.set a _) a).Response = _ ∧ (deref (s.heap.set a _) a).Request = _
    rw [deref_set, if_pos ⟨rfl, halt⟩]
    unfold setLeg
    rw [if_neg hreq2]
    exact ⟨rfl, rfl⟩
  · unfold GetPairs
    simp only [List.length_reverse, List.length_map]

/-- Witness of C6: the response of `k1` arrives on the store holding its request. -/
theorem pair_completion_witness :
    Reachable storeAfterFirst ∧
    mapGet storeAfterFirst.pairs sampleResponse.PairKey = some 0 ∧
    ∃ t, Add storeAfterFirst sampleResponse = some t ∧
      t.pairs = storeAfterFirst.pairs ∧ t.pairList = storeAfterFirst.pairList ∧
      t.nextPair = storeAfterFirst.nextPair ∧
      (∀ b, b ≠ 0 → deref t.heap b = deref storeAfterFirst.heap b) ∧
      (deref t.heap 0).ID = (deref storeAfterFirst.heap 0).ID ∧
      (deref t.heap 0).Timestamp = (deref storeAfterFirst.heap 0).Timestamp ∧
      (sampleResponse.Typ = PacketRequest →
        (deref t.heap 0).Request = some { sampleResponse with ID := storeAfterFirst.nextID } ∧
        (deref t.heap 0).Response = (deref storeAfterFirst.heap 0).Response) ∧
      (sampleResponse.Typ ≠ PacketRequest →
        (deref t.heap 0).Response = some { sampleResponse with ID := storeAfterFirst.nextID } ∧
        (deref t.heap 0).Request = (deref storeAfterFirst.heap 0).Request) ∧
      (GetPairs t).length = (GetPairs storeAfterFirst).length ∧
      GetPairs t = (storeAfterFirst.pairList.map (fun b => deref t.heap b)).reverse :=
  ⟨⟨1, [Op.add sampleRequest], by decide⟩, by decide,
    pair_completion storeAfterFirst sampleResponse 0 ⟨1, [Op.add sampleRequest], by decide⟩
      (by decide)⟩


/-! ## C7: Clear -/

theorem lastN_singleton {α : Type} (m : Nat) (x : α) :
    lastN m [x] = if 1 ≤ m then [x] else [] := by
  unfold lastN
  by_cases h : 1 ≤ m
  · rw [if_pos h]
    have : [x].length - m = 0 := by simp only [List.length_singleton]; omega
    rw [this, List.drop_zero]
  · rw [if_neg h]
    have : [x].length - m = 1 := by simp only [List.length_singleton]; omega
    rw [this]
    rfl

/-- `Add` on a store whose history, map and pair list are empty. -/
theorem Add_on_empty (s : PacketStore) (p : CapturedPacket) (hm : 0 ≤ s.maxSize)
    (hp : s.packets = []) (hmap : s.pairs = []) (hl : s.pairList = []) :
    ∃ t, Add s p = some t ∧
      GetAll t = (if 1 ≤ s.maxSize.toNat then [stamped s p] else []) ∧
      GetPairs t = (if p.PairKey = "" then []
        else if 1 ≤ s.maxSize.toNat then [freshPair s p] else []) := by
  refine ⟨_, Add_of_nonneg s p hm, ?_, ?_⟩
  · show (lastN s.maxSize.toNat (tracked s p).packets).reverse = _
    rw [tracked_packets, hp, List.nil_append]
    show (lastN s.maxSize.toNat [stamped s p]).reverse = _
    rw [lastN_singleton]
    split <;> rfl
  · show ((lastN s.maxSize.toNat (tracked s p).pairList).map (deref (tracked s p).heap)).reverse
      = _
    by_cases hk : p.PairKey = ""
    · rw [if_pos hk, tracked_of_empty s p hk]
      show ((lastN s.maxSize.toNat s.pairList).map (deref s.heap)).reverse = []
      rw [hl, lastN_of_le _ _ (Nat.zero_le _)]
      rfl
    · rw [if_neg hk]
      have hg : mapGet s.pairs p.PairKey = none := by rw [hmap]; rfl
      rw [tracked_of_fresh s p hk hg]
      show ((lastN s.maxSize.toNat (s.pairList ++ [s.heap.length])).map
        (deref (s.heap ++ [freshPair s p]))).reverse = _
      rw [hl, List.nil_append, lastN_singleton]
      split
      · show [deref (s.heap ++ [freshPair s p]) s.heap.length] = _
        rw [deref_append_length]
      · rfl

theorem stamped_shift (s : PacketStore) (m : Int) (p : CapturedPacket) :
    stamped s p = shiftID (s.nextID - 1) (stamped (NewPacketStore m) p) := by
  unfold shiftID
  rw [stamped_eq, stamped_eq]
  show _ = { p with ID := 1 + (s.nextID - 1) }
  have : 1 + (s.nextID - 1) = s.nextID := by omega
  rw [this]

theorem freshPair_shift (s : PacketStore) (m : Int) (p : CapturedPacket) :
    freshPair s p =
      shiftPair (s.nextID - 1) (s.nextPair - 1) (freshPair (NewPacketStore m) p) := by
  have e1 : (1 : Int) + (s.nextPair - 1) = s.nextPair := by omega
  unfold freshPair setLeg shiftPair
  rw [stamped_shift s m p]
  by_cases h : p.Typ = PacketRequest
  · have h1 : (shiftID (s.nextID - 1) (stamped (NewPacketStore m) p)).Typ = PacketRequest := h
    have h2 : (stamped (NewPacketStore m) p).Typ = PacketRequest := h
    rw [if_pos h1, if_pos h2]
    show PacketPair.mk _ _ _ _ = PacketPair.mk (1 + (s.nextPair - 1)) _ _ _
    rw [e1]
    rfl
  · have h1 : ¬ (shiftID (s.nextID - 1) (stamped (NewPacketStore m) p)).Typ = PacketRequest := h
    have h2 : ¬ (stamped (NewPacketStore m) p).Typ = PacketRequest := h
    rw [if_neg h1, if_neg h2]
    show PacketPair.mk _ _ _ _ = PacketPair.mk (1 + (s.nextPair - 1)) _ _ _
    rw [e1]
    rfl

/-- C7. For every store value `s`: after `Clear` the history, the pairing map and the
pair list are empty, so `GetAll` and `GetPairs` return empty sequences and `Count`
returns 0, while `maxSize`, `nextID` and `nextPair` are unchanged.  Consequently, for
every message `p`, `Add p` after `Clear` returns exactly when `Add p` on
`NewPacketStore s.maxSize` does, and `GetAll` / `GetPairs` of the results agree up to
numbering: the message ID is `s.nextID` instead of 1 and the pair id is `s.nextPair`
instead of 1 (a shift by `nextID - 1`, respectively `nextPair - 1`). -/
theorem clear_resets (s : PacketStore) (p : CapturedPacket) :
    (Clear s).packets = [] ∧ (Clear s).pairs = [] ∧ (Clear s).pairList = [] ∧
    GetAll (Clear s) = [] ∧ GetPairs (Clear s) = [] ∧ Count (Clear s) = 0 ∧
    (Clear s).maxSize = s.maxSize ∧ (Clear s).nextID = s.nextID ∧
    (Clear s).nextPair = s.nextPair ∧
    (Add (Clear s) p).map GetAll =
      (Add (NewPacketStore s.maxSize) p).map
        (fun t => (GetAll t).map (shiftID (s.nextID - 1))) ∧
    (Add (Clear s) p).map GetPairs =
      (Add (NewPacketStore s.maxSize) p).map
        (fun t => (GetPairs t).map (shiftPair (s.nextID - 1) (s.nextPair - 1))) ∧
    ((Add (Clear s) p).isSome ↔ 0 ≤ s.maxSize) := by
  refine ⟨rfl, rfl, rfl, rfl, rfl, rfl, rfl, rfl, rfl, ?_⟩
  by_cases hm : 0 ≤ s.maxSize
  · obtain ⟨t1, ht1, hall1, hpairs1⟩ := Add_on_empty (Clear s) p hm rfl rfl rfl
    obtain ⟨t2, ht2, hall2, hpairs2⟩ :=
      Add_on_empty (NewPacketStore s.maxSize) p hm rfl rfl rfl
    rw [ht1, ht2]
    simp only [Option.map_some', Option.some.injEq, Option.isSome_some, true_iff]
    refine ⟨?_, ?_, hm⟩
    · rw [hall1, hall2]
      show (if 1 ≤ s.maxSize.toNat then [stamped (Clear s) p] else []) =
        (if 1 ≤ s.maxSize.toNat then [stamped (NewPacketStore s.maxSize) p] else []).map _
      split
      · rw [List.map_singleton]
        exact congrArg (fun x => [x]) (stamped_shift (Clear s) s.maxSize p)
      · rfl
    · rw [hpairs1, hpairs2]
      show (if p.PairKey = "" then []
          else if 1 ≤ s.maxSize.toNat then [freshPair (Clear s) p] else []) =
        (if p.PairKey = "" then []
          else if 1 ≤ s.maxSize.toNat then [freshPair (NewPacketStore s.maxSize) p]
            else []).map _
      split
      · rfl
      · split
        · rw [List.map_singleton]
          exact congrArg (fun x => [x]) (freshPair_shift (Clear s) s.maxSize p)
        · rfl
  · have h1 : Add (Clear s) p = none := Add_of_neg _ _ (by show s.maxSize < 0; omega)
    have h2 : Add (NewPacketStore s.maxSize) p = none :=
      Add_of_neg _ _ (by show s.maxSize < 0; omega)
    rw [h1, h2]
    simp only [Option.map_none', Option.isSome_none, Bool.false_eq_true, false_iff, true_and]
    exact hm


/-! ## C8: classification -/

theorem HasPrefix_iff (s pre : Bytes) : HasPrefix s pre = true ↔ ∃ rest, s = pre ++ rest := by
  unfold HasPrefix
  rw [List.isPrefixOf_iff_prefix]
  constructor
  · rintro ⟨r, hr⟩
    exact ⟨r, hr.symm⟩
  · rintro ⟨r, hr⟩
    exact ⟨r, hr.symm⟩

theorem isHTTPRequest_iff (line : Bytes) :
    isHTTPRequest line = true ↔
      ∃ method ∈ methods, ∃ rest, line = ascii (method ++ " ") ++ rest := by
  unfold isHTTPRequest
  rw [List.any_eq_true]
  constructor
  · rintro ⟨m, hm, h⟩
    exact ⟨m, hm, (HasPrefix_iff _ _).mp h⟩
  · rintro ⟨m, hm, h⟩
    exact ⟨m, hm, (HasPrefix_iff _ _).mpr h⟩

theorem not_request_and_response (line : Bytes) :
    ¬ (isHTTPRequest line = true ∧ isHTTPResponse line = true) := by
  rintro ⟨h1, h2⟩
  obtain ⟨rest, rfl⟩ := (HasPrefix_iff _ _).mp h2
  have e : ascii "HTTP/" = [72, 84, 84, 80, 47] := by decide
  rw [e] at h1
  obtain ⟨m, hm, r2, h⟩ := (isHTTPRequest_iff _).mp h1
  have hall : ∀ m ∈ methods, 2 ≤ (ascii (m ++ " ")).length ∧
      (ascii (m ++ " ")).take 2 ≠ [72, 84] := by
    decide
  obtain ⟨hlen, hne⟩ := hall m hm
  apply hne
  have h3 := congrArg (List.take 2) h
  rw [List.take_append_of_le_length hlen] at h3
  rw [← h3]
  rfl

theorem iteration_skip {σ M : Type} (F : Flow σ M) (st st1 : σ) (line : Bytes)
    (hread : F.ReadLine st = (ReadResult.line line, st1))
    (hreq : isHTTPRequest line = false) (hresp : isHTTPResponse line = false) :
    iteration F st = ([], true, st1) := by
  unfold iteration
  rw [hread]
  simp only [hreq, hresp, Bool.false_eq_true, if_false]

/-- C8. `isHTTPRequest line` is true exactly when `line` begins with one of `GET`,
`POST`, `PUT`, `DELETE`, `PATCH`, `HEAD`, `OPTIONS`, `TRACE`, `CONNECT` followed by a
space (byte for byte, so case-sensitive); `isHTTPResponse line` is true exactly when
`line` begins with `HTTP/`; no line satisfies both; and in the loop, when `ReadLine`
returns a line satisfying neither, the pass prints nothing, calls no parser (the reader
state is the one `ReadLine` left) and the loop goes on with the next `ReadLine`. -/
theorem classification :
    methods = ["GET", "POST", "PUT", "DELETE", "PATCH", "HEAD", "OPTIONS", "TRACE", "CONNECT"] ∧
    (∀ line : Bytes, isHTTPRequest line = true ↔
      ∃ method ∈ methods, ∃ rest, line = ascii (method ++ " ") ++ rest) ∧
    (∀ line : Bytes, isHTTPResponse line = true ↔ ∃ rest, line = ascii "HTTP/" ++ rest) ∧
    (∀ line : Bytes, ¬ (isHTTPRequest line = true ∧ isHTTPResponse line = true)) ∧
    (∀ (σ M : Type) (F : Flow σ M) (st st1 : σ) (line : Bytes),
      F.ReadLine st = (ReadResult.line line, st1) →
      isHTTPRequest line = false → isHTTPResponse line = false →
      iteration F st = ([], true, st1) ∧
      ∀ fuel, run F (fuel + 1) st = run F fuel st1) := by
  refine ⟨rfl, isHTTPRequest_iff, ?_, not_request_and_response, ?_⟩
  · intro line
    exact HasPrefix_iff _ _
  · intro σ M F st st1 line hread hreq hresp
    have hit := iteration_skip F st st1 line hread hreq hresp
    refine ⟨hit, ?_⟩
    intro fuel
    rw [run, hit]
    simp only [List.nil_append]

/-- Witness of C8: a stray line between a request line and the end of input is
skipped, and the next pass reads the end of input. -/
theorem classification_witness :
    scriptFlow.ReadLine { pending := [ReadResult.line (ascii "garbage"), ReadResult.eof], reads := 0 }
      = (ReadResult.line (ascii "garbage"), { pending := [ReadResult.eof], reads := 1 }) ∧
    isHTTPRequest (ascii "garbage") = false ∧ isHTTPResponse (ascii "garbage") = false ∧
    iteration scriptFlow
      { pending := [ReadResult.line (ascii "garbage"), ReadResult.eof], reads := 0 }
      = ([], true, { pending := [ReadResult.eof], reads := 1 }) ∧
    ∀ fuel, run scriptFlow (fuel + 1)
        { pending := [ReadResult.line (ascii "garbage"), ReadResult.eof], reads := 0 }
      = run scriptFlow fuel { pending := [ReadResult.eof], reads := 1 } :=
  ⟨by decide, by decide, by decide,
    classification.2.2.2.2 Script Bytes scriptFlow _ _ (ascii "garbage") (by decide)
      (by decide) (by decide)⟩


/-! ## C10: stream read error -/

/-- C10, counterexample.  `ReadLine` fails with an error other than end of input; the
pass logs it and the loop goes on (`true`): it calls `ReadLine` twice more (three calls
in all), parses and logs the request that follows, and returns only at end of input. -/
theorem read_error_counterexample :
    iteration scriptFlow errorThenRequest =
      ([Event.errorReadingStream "connection reset"], true,
        { pending := [ReadResult.line (ascii "GET / HTTP/1.1"), ReadResult.eof], reads := 1 }) ∧
    run scriptFlow 3 errorThenRequest =
      ([Event.errorReadingStream "connection reset",
        Event.logRequest (ascii "GET / HTTP/1.1\r\n") []], true,
        { pending := [], reads := 3 }) := by
  decide

/-- C10, amended.  When `ReadLine` fails with an error other than end of input, the
pass logs the error and the loop goes on: the next pass calls `ReadLine` again on the
reader as the failed call left it, so `run` does not return because of the error.  When
`ReadLine` reports end of input, the pass prints nothing and `run` returns. -/
theorem read_error_continues {σ M : Type} (F : Flow σ M) (st st1 : σ) :
    (∀ msg, F.ReadLine st = (ReadResult.error msg, st1) →
      iteration F st = ([Event.errorReadingStream msg], true, st1) ∧
      ∀ fuel, run F (fuel + 1) st =
        (Event.errorReadingStream msg :: (run F fuel st1).1,
          (run F fuel st1).2.1, (run F fuel st1).2.2)) ∧
    (F.ReadLine st = (ReadResult.eof, st1) →
      iteration F st = ([], false, st1) ∧
      ∀ fuel, run F (fuel + 1) st = ([], true, st1)) := by
  constructor
  · intro msg hread
    have hit : iteration F st = ([Event.errorReadingStream msg], true, st1) := by
      unfold iteration
      rw [hread]
    refine ⟨hit, ?_⟩
    intro fuel
    rw [run, hit]
    rfl
  · intro hread
    have hit : iteration F st = ([], false, st1) := by
      unfold iteration
      rw [hread]
    refine ⟨hit, ?_⟩
    intro fuel
    rw [run, hit]

/-- Witness of C10 (amended): the scripted flow, at the failing read and at the end of
input. -/
theorem read_error_continues_witness :
    (scriptFlow.ReadLine errorThenRequest =
        (ReadResult.error "connection reset",
          { pending := [ReadResult.line (ascii "GET / HTTP/1.1"), ReadResult.eof], reads := 1 }) ∧
      iteration scriptFlow errorThenRequest =
        ([Event.errorReadingStream "connection reset"], true,
          { pending := [ReadResult.line (ascii "GET / HTTP/1.1"), ReadResult.eof], reads := 1 }) ∧
      ∀ fuel, run scriptFlow (fuel + 1) errorThenRequest =
        (Event.errorReadingStream "connection reset" ::
          (run scriptFlow fuel
            { pending := [ReadResult.line (ascii "GET / HTTP/1.1"), ReadResult.eof],
              reads := 1 }).1,
          (run scriptFlow fuel
            { pending := [ReadResult.line (ascii "GET / HTTP/1.1"), ReadResult.eof],
              reads := 1 }).2.1,
          (run scriptFlow fuel
            { pending := [ReadResult.line (ascii "GET / HTTP/1.1"), ReadResult.eof],
              reads := 1 }).2.2)) ∧
    (scriptFlow.ReadLine { pending := [ReadResult.eof], reads := 2 } =
        (ReadResult.eof, { pending := [], reads := 3 }) ∧
      iteration scriptFlow { pending := [ReadResult.eof], reads := 2 } =
        ([], false, { pending := [], reads := 3 }) ∧
      ∀ fuel, run scriptFlow (fuel + 1) { pending := [ReadResult.eof], reads := 2 } =
        ([], true, { pending := [], reads := 3 })) :=
  ⟨⟨by decide,
    (read_error_continues scriptFlow errorThenRequest
      { pending := [ReadResult.line (ascii "GET / HTTP/1.1"), ReadResult.eof], reads := 1 }).1
      "connection reset" (by decide)⟩,
   ⟨by decide,
    (read_error_continues scriptFlow { pending := [ReadResult.eof], reads := 2 }
      { pending := [], reads := 3 }).2 (by decide)⟩⟩


/-! ## C9: insertion safety under serialisation -/

theorem soloPairs_length (i j : Int) (ps : List CapturedPacket) :
    (soloPairs i j ps).length = ps.length := by
  induction ps generalizing i j with
  | nil => rfl
  | cons p ps ih => simp [soloPairs, ih]

theorem legs_soloPair (i j : Int) (p : CapturedPacket) :
    legs (soloPair i j p) = [{ p with ID := i }] := by
  unfold soloPair setLeg legs
  split <;> rfl

theorem soloPair_ID (i j : Int) (p : CapturedPacket) : (soloPair i j p).ID = j := by
  unfold soloPair
  rw [setLeg_ID]

theorem mem_soloPairs {i j : Int} {ps : List CapturedPacket} {pr : PacketPair}
    (h : pr ∈ soloPairs i j ps) :
    ∃ p ∈ ps, ∃ i' j', i ≤ i' ∧ j ≤ j' ∧ pr = soloPair i' j' p := by
  induction ps generalizing i j with
  | nil => cases h
  | cons p ps ih =>
    rcases List.mem_cons.mp h with rfl | h
    · exact ⟨p, List.mem_cons_self _ _, i, j, le_refl _, le_refl _, rfl⟩
    · obtain ⟨p', hp', i', j', hi, hj, e⟩ := ih h
      exact ⟨p', List.mem_cons_of_mem _ hp', i', j', by omega, by omega, e⟩

theorem soloPairs_mem {i j : Int} {ps : List CapturedPacket} {p : CapturedPacket}
    (h : p ∈ ps) : ∃ i' j', soloPair i' j' p ∈ soloPairs i j ps := by
  induction ps generalizing i j with
  | nil => cases h
  | cons p0 ps ih =>
    rcases List.mem_cons.mp h with rfl | h
    · exact ⟨i, j, List.mem_cons_self _ _⟩
    · obtain ⟨i', j', hmem⟩ := ih (i := i + 1) (j := j + 1) h
      exact ⟨i', j', List.mem_cons_of_mem _ hmem⟩

theorem soloPairs_ids_incr (i j : Int) (ps : List CapturedPacket) :
    ((soloPairs i j ps).map (fun pr => pr.ID)).Pairwise (fun a b => a < b) := by
  induction ps generalizing i j with
  | nil => exact List.Pairwise.nil
  | cons p ps ih =>
    simp only [soloPairs, List.map_cons, List.pairwise_cons]
    refine ⟨?_, ih (i + 1) (j + 1)⟩
    intro b hb
    obtain ⟨pr, hpr, rfl⟩ := List.mem_map.mp hb
    obtain ⟨p', -, i', j', -, hj, rfl⟩ := mem_soloPairs hpr
    rw [soloPair_ID, soloPair_ID]
    omega

theorem mem_stampFrom {i : Int} {ps : List CapturedPacket} {q : CapturedPacket}
    (h : q ∈ stampFrom i ps) : ∃ p ∈ ps, q = { p with ID := q.ID } := by
  induction ps generalizing i with
  | nil => cases h
  | cons p ps ih =>
    rcases List.mem_cons.mp h with rfl | h
    · exact ⟨p, List.mem_cons_self _ _, rfl⟩
    · obtain ⟨p', hp', e⟩ := ih h
      exact ⟨p', List.mem_cons_of_mem _ hp', e⟩

/-- A run of `Add` calls with fresh, pairwise distinct, non-empty keys on a consistent
store with enough room: nothing is trimmed, and one pair is created per message. -/
theorem addAll_distinct (s : PacketStore) (ps : List CapturedPacket) (hinv : PairInv s)
    (hm : 0 ≤ s.maxSize)
    (hroomP : s.packets.length + ps.length ≤ s.maxSize.toNat)
    (hroomL : s.pairList.length + ps.length ≤ s.maxSize.toNat)
    (hne : ∀ p ∈ ps, p.PairKey ≠ "")
    (hfresh : ∀ p ∈ ps, mapGet s.pairs p.PairKey = none)
    (hnodup : (ps.map (fun p => p.PairKey)).Nodup) :
    ∃ t, addAll s ps = some t ∧
      t.packets = s.packets ++ stampFrom s.nextID ps ∧
      GetPairs t = (soloPairs s.nextID s.nextPair ps).reverse ++ GetPairs s := by
  induction ps generalizing s with
  | nil => exact ⟨s, rfl, by simp [stampFrom], by simp [soloPairs]⟩
  | cons p ps ih =>
    have hlen : (p :: ps).length = ps.length + 1 := List.length_cons _ _
    rw [hlen] at hroomP hroomL
    have hm1 : 1 ≤ s.maxSize := by omega
    have hk := hne p (List.mem_cons_self _ _)
    have hg := hfresh p (List.mem_cons_self _ _)
    obtain ⟨u, hu, -, hulist, -, hunp, huget⟩ := Add_creates s p hinv hm1 hk hg
    obtain ⟨-, humax, hunext, hupk⟩ := Add_some_packets hu
    obtain ⟨huinv, -⟩ := PairInv_add hinv hu
    have hupk2 : u.packets = s.packets ++ [{ p with ID := s.nextID }] := by
      rw [hupk]
      apply lastN_of_le
      rw [List.length_append, List.length_singleton]
      omega
    have hulist2 : u.pairList.length = s.pairList.length + 1 := by
      rw [hulist, List.length_append, List.length_singleton, lastN_of_le _ _ (by omega)]
    have huget2 : GetPairs u = freshPair s p :: GetPairs s := by
      rw [huget, List.take_of_length_le]
      unfold GetPairs
      rw [List.length_reverse, List.length_map]
      omega
    rw [List.map_cons, List.nodup_cons] at hnodup
    obtain ⟨t, ht, htpk, htget⟩ := ih u huinv (by omega)
      (by rw [hupk2, List.length_append, List.length_singleton, humax]; omega)
      (by rw [hulist2, humax]; omega)
      (fun q hq => hne q (List.mem_cons_of_mem _ hq))
      (fun q hq => Add_mapGet_none hu
        (fun e => hnodup.1 (List.mem_map.mpr ⟨q, hq, e.symm⟩))
        (hfresh q (List.mem_cons_of_mem _ hq)))
      hnodup.2
    refine ⟨t, ?_, ?_, ?_⟩
    · show (Add s p).bind (fun t => runOps t (ps.map Op.add)) = some t
      rw [hu]
      exact ht
    · rw [htpk, hupk2, hunext, List.append_assoc]
      rfl
    · rw [htget, huget2, hunext, hunp]
      simp only [soloPairs, List.reverse_cons, List.append_assoc, List.singleton_append]
      rfl

/-- C9. Let `msgs` be `N ≤ maxSize` messages with pairwise distinct non-empty PairKeys,
and let `order` be any order in which the lock serialises their `Add` calls (any
permutation of `msgs`) on `NewPacketStore m`.  The run returns a store with exactly `N`
messages and exactly `N` pairs; the pair ids are pairwise distinct; every pair holds
exactly one leg, which is one of the messages with only its ID assigned, and every
message is the single leg of some pair (nothing is lost); and every message returned by
`GetAll` or as a leg by `GetPairs` has the Body and BodySize of the inserted message
with the same PairKey. -/
theorem insertion_safety (m : Int) (msgs order : List CapturedPacket)
    (hN : (msgs.length : Int) ≤ m) (hperm : order.Perm msgs)
    (hne : ∀ p ∈ msgs, p.PairKey ≠ "")
    (hnodup : (msgs.map (fun p => p.PairKey)).Nodup) :
    ∃ s, addAll (NewPacketStore m) order = some s ∧
      (GetAll s).length = msgs.length ∧ Count s = msgs.length ∧
      (GetPairs s).length = msgs.length ∧
      ((GetPairs s).map (fun pr => pr.ID)).Nodup ∧
      GetAll s = (stampFrom 1 order).reverse ∧
      GetPairs s = (soloPairs 1 1 order).reverse ∧
      (∀ pr ∈ GetPairs s, ∃ p ∈ msgs, ∃ i, legs pr = [{ p with ID := i }]) ∧
      (∀ p ∈ msgs, ∃ pr ∈ GetPairs s, ∃ i, legs pr = [{ p with ID := i }]) ∧
      (∀ q ∈ GetAll s, ∃ p ∈ msgs, p.PairKey = q.PairKey ∧
        q.Body = p.Body ∧ q.BodySize = p.BodySize) ∧
      (∀ pr ∈ GetPairs s, ∀ q ∈ legs pr, ∃ p ∈ msgs, p.PairKey = q.PairKey ∧
        q.Body = p.Body ∧ q.BodySize = p.BodySize) := by
  have hlen : order.length = msgs.length := hperm.length_eq
  have hm0 : 0 ≤ m := by omega
  have hroom : 0 + order.length ≤ m.toNat := by omega
  obtain ⟨s, hs, hpk, hget⟩ := addAll_distinct (NewPacketStore m) order (PairInv_new m) hm0
    hroom hroom
    (fun p hp => hne p (hperm.mem_iff.mp hp))
    (fun p _ => rfl)
    ((hperm.map (fun p => p.PairKey)).nodup_iff.mpr hnodup)
  have hpk2 : s.packets = stampFrom 1 order := by
    rw [hpk]
    rfl
  have hget2 : GetPairs s = (soloPairs 1 1 order).reverse := by
    rw [hget]
    show _ ++ [] = _
    rw [List.append_nil]
    rfl
  have hall : GetAll s = (stampFrom 1 order).reverse := by
    unfold GetAll
    rw [hpk2]
  have hsolo : ∀ pr ∈ GetPairs s, ∃ p ∈ msgs, ∃ i, legs pr = [{ p with ID := i }] := by
    intro pr hpr
    rw [hget2, List.mem_reverse] at hpr
    obtain ⟨p, hp, i', j', -, -, rfl⟩ := mem_soloPairs hpr
    exact ⟨p, hperm.mem_iff.mp hp, i', legs_soloPair i' j' p⟩
  refine ⟨s, hs, ?_, ?_, ?_, ?_, hall, hget2, hsolo, ?_, ?_, ?_⟩
  · rw [hall, List.length_reverse, stampFrom_length, hlen]
  · unfold Count
    rw [hpk2, stampFrom_length, hlen]
  · rw [hget2, List.length_reverse, soloPairs_length, hlen]
  · rw [hget2, List.map_reverse, List.nodup_reverse]
    exact (soloPairs_ids_incr 1 1 order).imp (fun h => ne_of_lt h)
  · intro p hp
    obtain ⟨i', j', hmem⟩ := soloPairs_mem (i := 1) (j := 1) (hperm.mem_iff.mpr hp)
    refine ⟨soloPair i' j' p, ?_, i', legs_soloPair i' j' p⟩
    rw [hget2, List.mem_reverse]
    exact hmem
  · intro q hq
    rw [hall, List.mem_reverse] at hq
    obtain ⟨p, hp, e⟩ := mem_stampFrom hq
    refine ⟨p, hperm.mem_iff.mp hp, ?_, ?_, ?_⟩ <;> rw [e]
  · intro pr hpr q hq
    obtain ⟨p, hp, i, hl⟩ := hsolo pr hpr
    rw [hl, List.mem_singleton] at hq
    refine ⟨p, hp, ?_, ?_, ?_⟩ <;> rw [hq]

/-- Witness of C9: two flows (`k1`, `k2`) on a store of size two, the second call
serialised first. -/
theorem insertion_safety_witness :
    (([sampleRequest, sampleRequest2].length : Nat) : Int) ≤ 2 ∧
    [sampleRequest2, sampleRequest].Perm [sampleRequest, sampleRequest2] ∧
    (∀ p ∈ [sampleRequest, sampleRequest2], p.PairKey ≠ "") ∧
    ([sampleRequest, sampleRequest2].map (fun p => p.PairKey)).Nodup ∧
    ∃ s, addAll (NewPacketStore 2) [sampleRequest2, sampleRequest] = some s ∧
      (GetAll s).length = [sampleRequest, sampleRequest2].length ∧
      Count s = [sampleRequest, sampleRequest2].length ∧
      (GetPairs s).length = [sampleRequest, sampleRequest2].length ∧
      ((GetPairs s).map (fun pr => pr.ID)).Nodup ∧
      GetAll s = (stampFrom 1 [sampleRequest2, sampleRequest]).reverse ∧
      GetPairs s = (soloPairs 1 1 [sampleRequest2, sampleRequest]).reverse ∧
      (∀ pr ∈ GetPairs s, ∃ p ∈ [sampleRequest, sampleRequest2], ∃ i,
        legs pr = [{ p with ID := i }]) ∧
      (∀ p ∈ [sampleRequest, sampleRequest2], ∃ pr ∈ GetPairs s, ∃ i,
        legs pr = [{ p with ID := i }]) ∧
      (∀ q ∈ GetAll s, ∃ p ∈ [sampleRequest, sampleRequest2], p.PairKey = q.PairKey ∧
        q.Body = p.Body ∧ q.BodySize = p.BodySize) ∧
      (∀ pr ∈ GetPairs s, ∀ q ∈ legs pr, ∃ p ∈ [sampleRequest, sampleRequest2],
        p.PairKey = q.PairKey ∧ q.Body = p.Body ∧ q.BodySize = p.BodySize) :=
  ⟨by decide, List.Perm.swap _ _ _, by decide, by decide,
    insertion_safety 2 [sampleRequest, sampleRequest2] [sampleRequest2, sampleRequest]
      (by decide) (List.Perm.swap _ _ _) (by decide) (by decide)⟩


/-! ## C12: a listed pair has a leg -/

theorem HasKey_some_leg {pr : PacketPair} {K : String} (h : HasKey pr K) :
    pr.Request ≠ none ∨ pr.Response ≠ none := by
  obtain ⟨q, hq⟩ := List.exists_mem_of_ne_nil _ h.1
  rcases (mem_legs pr q).mp hq with hr | hr
  · left
    rw [hr]
    exact Option.some_ne_none q
  · right
    rw [hr]
    exact Option.some_ne_none q

theorem mem_GetPairs {s : PacketStore} {pr : PacketPair} (h : pr ∈ GetPairs s) :
    ∃ a ∈ s.pairList, pr = deref s.heap a := by
  unfold GetPairs at h
  obtain ⟨a, ha, e⟩ := List.mem_map.mp (List.mem_reverse.mp h)
  exact ⟨a, ha, e.symm⟩

/-- C12. In every store reachable from `NewPacketStore m` (any `m`) by a sequence of
`Add` and `Clear` calls, every pair returned by `GetPairs` has its request leg or its
response leg present. -/
theorem pair_nonempty (m : Int) (ops : List Op) (s : PacketStore)
    (hs : runOps (NewPacketStore m) ops = some s) :
    ∀ pr ∈ GetPairs s, pr.Request ≠ none ∨ pr.Response ≠ none := by
  obtain ⟨hinv, -⟩ := PairInv_of_Reachable ⟨m, ops, hs⟩
  intro pr hpr
  obtain ⟨a, ha, rfl⟩ := mem_GetPairs hpr
  obtain ⟨K, hK⟩ := hinv.covered a ha
  exact HasKey_some_leg (hinv.keyed K a hK).2.2

/-- Witness of C12: the store holding the request of `k1`. -/
theorem pair_nonempty_witness :
    runOps (NewPacketStore 1) [Op.add sampleRequest] = some storeAfterFirst ∧
    ∀ pr ∈ GetPairs storeAfterFirst, pr.Request ≠ none ∨ pr.Response ≠ none :=
  ⟨by decide, pair_nonempty 1 [Op.add sampleRequest] storeAfterFirst (by decide)⟩


/-! ## C13: bounded, ordered pair list -/

theorem CountsDownFrom_take {n : Int} {xs : List Int} (k : Nat) (h : CountsDownFrom n xs) :
    CountsDownFrom n (xs.take k) := by
  induction xs generalizing n k with
  | nil => simpa using h
  | cons x xs ih =>
    cases k with
    | zero => exact trivial
    | succ k => exact ⟨h.1, ih k h.2⟩

theorem CountsDownFrom_getElem? {n : Int} {xs : List Int} (h : CountsDownFrom n xs) (i : Nat)
    (hi : i < xs.length) : xs[i]? = some (n - 1 - (i : Int)) := by
  induction xs generalizing n i with
  | nil => cases hi
  | cons x xs ih =>
    cases i with
    | zero =>
      rw [List.getElem?_cons_zero, h.1]
      simp
    | succ i =>
      rw [List.getElem?_cons_succ, ih h.2 i (Nat.lt_of_succ_lt_succ hi)]
      congr 1
      push_cast
      omega

theorem CountsDownFrom_lt {n : Int} {xs : List Int} (h : CountsDownFrom n xs) :
    ∀ x ∈ xs, x < n := by
  induction xs generalizing n with
  | nil => intro x hx; cases hx
  | cons y ys ih =>
    intro x hx
    rcases List.mem_cons.mp hx with rfl | hx
    · have := h.1
      omega
    · have := ih h.2 x hx
      omega

theorem CountsDownFrom_pairwise {n : Int} {xs : List Int} (h : CountsDownFrom n xs) :
    xs.Pairwise (fun a b => a > b) := by
  induction xs generalizing n with
  | nil => exact List.Pairwise.nil
  | cons y ys ih =>
    refine List.Pairwise.cons ?_ (ih h.2)
    intro x hx
    have := CountsDownFrom_lt h.2 x hx
    have := h.1
    omega

theorem GetPairs_Add {s t : PacketStore} {p : CapturedPacket} (ht : Add s p = some t) :
    GetPairs t = (GetPairs (tracked s p)).take s.maxSize.toNat := by
  obtain ⟨-, rfl⟩ := Add_some ht
  show ((lastN s.maxSize.toNat (tracked s p).pairList).map (deref (tracked s p).heap)).reverse
    = _
  unfold GetPairs
  rw [← lastN_map, reverse_lastN]

theorem pairIds_tracked {s : PacketStore} (hinv : PairInv s) (p : CapturedPacket) :
    (pairIds (tracked s p) = pairIds s ∧ (tracked s p).nextPair = s.nextPair) ∨
    (pairIds (tracked s p) = s.nextPair :: pairIds s ∧
      (tracked s p).nextPair = s.nextPair + 1) := by
  by_cases hk : p.PairKey = ""
  · left
    rw [tracked_of_empty s p hk]
    exact ⟨rfl, rfl⟩
  · cases hg : mapGet s.pairs p.PairKey with
    | some a =>
      left
      rw [tracked_of_exists s p a hk hg]
      refine ⟨?_, rfl⟩
      unfold pairIds GetPairs
      show ((s.pairList.map (deref (s.heap.set a _))).reverse).map _ = _
      rw [List.map_reverse, List.map_reverse, List.map_map, List.map_map]
      congr 1
      apply List.map_congr_left
      intro b _
      show (deref (s.heap.set a _) b).ID = (deref s.heap b).ID
      rw [deref_set]
      split
      · next hab =>
        rw [setLeg_ID, hab.1]
      · rfl
    | none =>
      right
      rw [tracked_of_fresh s p hk hg]
      refine ⟨?_, rfl⟩
      unfold pairIds GetPairs
      show (((s.pairList ++ [s.heap.length]).map
        (deref (s.heap ++ [freshPair s p]))).reverse).map _ = _
      rw [List.map_append, List.reverse_append, List.map_singleton, List.reverse_singleton,
        List.singleton_append, List.map_cons, deref_append_length, freshPair_ID]
      congr 3
      apply List.map_congr_left
      intro b hb
      exact deref_append_lt _ _ _ (hinv.valid b hb)

theorem CountsDownFrom_add {s t : PacketStore} {p : CapturedPacket} (hinv : PairInv s)
    (h : CountsDownFrom s.nextPair (pairIds s)) (ht : Add s p = some t) :
    CountsDownFrom t.nextPair (pairIds t) := by
  have hget := GetPairs_Add ht
  have hnp := (Add_some_heap ht).2
  unfold pairIds at h ⊢
  rw [hget, List.map_take, hnp]
  apply CountsDownFrom_take
  rcases pairIds_tracked hinv p with ⟨e1, e2⟩ | ⟨e1, e2⟩
  · unfold pairIds at e1
    rw [e1, e2]
    exact h
  · unfold pairIds at e1
    rw [e1, e2]
    refine ⟨by omega, ?_⟩
    have e : s.nextPair + 1 - 1 = s.nextPair := by omega
    rw [e]
    exact h

theorem CountsDownFrom_runFrom {s t : PacketStore} {ops : List Op} (hinv : PairInv s)
    (hb : Bounded s) (h : CountsDownFrom s.nextPair (pairIds s))
    (ht : runOps s ops = some t) : CountsDownFrom t.nextPair (pairIds t) := by
  induction ops generalizing s with
  | nil =>
    cases ht
    exact h
  | cons op ops ih =>
    cases op with
    | add p =>
      change (Add s p).bind (fun u => runOps u ops) = some t at ht
      cases hu : Add s p with
      | none => rw [hu] at ht; cases ht
      | some u =>
        rw [hu] at ht
        obtain ⟨h1, h2⟩ := PairInv_add hinv hu
        exact ih h1 h2 (CountsDownFrom_add hinv h hu) ht
    | clear =>
      change runOps (Clear s) ops = some t at ht
      exact ih (PairInv_clear hinv) (Nat.zero_le _) trivial ht

/-- C13. In every store `s` reachable from `NewPacketStore m`, `m ≥ 0`, by a sequence
of `Add` and `Clear` calls: `GetPairs` returns at most `m` pairs; their ids count down
by one from `nextPair - 1` (entry `i` has id `nextPair - 1 - i`), so they are strictly
decreasing consecutive integers and the first entry is the most recently created pair;
and an `Add` keeps the first `m` entries of the newest-first list it builds (the old
list, with the new pair in front when one is created), so eviction removes the oldest
pairs. -/
theorem pair_list_ordered (m : Int) (hm : 0 ≤ m) (ops : List Op) (s : PacketStore)
    (hs : runOps (NewPacketStore m) ops = some s) :
    ((GetPairs s).length : Int) ≤ m ∧
    CountsDownFrom s.nextPair (pairIds s) ∧
    (∀ i, i < (GetPairs s).length → (pairIds s)[i]? = some (s.nextPair - 1 - (i : Int))) ∧
    (pairIds s).Pairwise (fun a b => a > b) ∧
    (∀ p t, Add s p = some t →
      GetPairs t = (GetPairs (tracked s p)).take m.toNat ∧
      (pairIds (tracked s p) = pairIds s ∨
        pairIds (tracked s p) = s.nextPair :: pairIds s)) := by
  obtain ⟨hinv, hbnd⟩ := PairInv_of_Reachable ⟨m, ops, hs⟩
  have hmax : s.maxSize = m := runOps_maxSize hs
  have hcd : CountsDownFrom s.nextPair (pairIds s) :=
    CountsDownFrom_runFrom (PairInv_new m) (Nat.zero_le _) trivial hs
  have hlen : (pairIds s).length = (GetPairs s).length := by
    unfold pairIds
    rw [List.length_map]
  refine ⟨?_, hcd, ?_, CountsDownFrom_pairwise hcd, ?_⟩
  · unfold GetPairs
    rw [List.length_reverse, List.length_map]
    unfold Bounded at hbnd
    omega
  · intro i hi
    exact CountsDownFrom_getElem? hcd i (by rw [hlen]; exact hi)
  · intro p t ht
    refine ⟨?_, ?_⟩
    · rw [GetPairs_Add ht, hmax]
    · rcases pairIds_tracked hinv p with ⟨e1, -⟩ | ⟨e1, -⟩
      · exact Or.inl e1
      · exact Or.inr e1

/-- Witness of C13: the store of size one holding the pair of `k1`. -/
theorem pair_list_ordered_witness :
    (0 : Int) ≤ 1 ∧
    runOps (NewPacketStore 1) [Op.add sampleRequest] = some storeAfterFirst ∧
    ((GetPairs storeAfterFirst).length : Int) ≤ 1 ∧
    CountsDownFrom storeAfterFirst.nextPair (pairIds storeAfterFirst) ∧
    (∀ i, i < (GetPairs storeAfterFirst).length →
      (pairIds storeAfterFirst)[i]? = some (storeAfterFirst.nextPair - 1 - (i : Int))) ∧
    (pairIds storeAfterFirst).Pairwise (fun a b => a > b) ∧
    (∀ p t, Add storeAfterFirst p = some t →
      GetPairs t = (GetPairs (tracked storeAfterFirst p)).take (1 : Int).toNat ∧
      (pairIds (tracked storeAfterFirst p) = pairIds storeAfterFirst ∨
        pairIds (tracked storeAfterFirst p) =
          storeAfterFirst.nextPair :: pairIds storeAfterFirst)) :=
  ⟨by decide, by decide,
    pair_list_ordered 1 (by decide) [Op.add sampleRequest] storeAfterFirst (by decide)⟩


/-! ## C14: the pairing map and the pair list describe the same pairs -/

theorem mem_of_mapGet {m : List (String × Addr)} {k : String} {v : Addr}
    (h : mapGet m k = some v) : (k, v) ∈ m := by
  induction m with
  | nil => cases h
  | cons e m ih =>
    obtain ⟨k', v'⟩ := e
    unfold mapGet at h
    by_cases hk : k' = k
    · rw [if_pos hk] at h
      cases h
      rw [hk]
      exact List.mem_cons_self _ _
    · rw [if_neg hk] at h
      exact List.mem_cons_of_mem _ (ih h)

theorem mapGet_of_mem {m : List (String × Addr)} {k : String} {v : Addr}
    (hnd : (m.map Prod.fst).Nodup) (h : (k, v) ∈ m) : mapGet m k = some v := by
  induction m with
  | nil => cases h
  | cons e m ih =>
    obtain ⟨k', v'⟩ := e
    rw [List.map_cons, List.nodup_cons] at hnd
    unfold mapGet
    rcases List.mem_cons.mp h with heq | hmem
    · cases heq
      rw [if_pos rfl]
    · have hne : ¬ k' = k := by
        intro e
        apply hnd.1
        rw [e]
        exact List.mem_map.mpr ⟨(k, v), hmem, rfl⟩
      rw [if_neg hne]
      exact ih hnd.2 hmem

theorem mapLen_of_nodup {m : List (String × Addr)} (hnd : (m.map Prod.fst).Nodup) :
    mapLen m = m.length := by
  unfold mapLen
  rw [List.Nodup.dedup hnd, List.length_map]

/-- In a consistent store the values of the map are, up to order, the pair list. -/
theorem PairInv_values_perm {s : PacketStore} (h : PairInv s) :
    (s.pairs.map Prod.snd).Perm s.pairList := by
  have hnd : (s.pairs.map Prod.snd).Nodup := by
    apply List.Nodup.map_on
    · intro x hx y hy hxy
      obtain ⟨k1, v1⟩ := x
      obtain ⟨k2, v2⟩ := y
      have e : v1 = v2 := hxy
      subst e
      have h1 := (h.keyed k1 v1 (mapGet_of_mem h.keysNodup hx)).2.2
      have h2 := (h.keyed k2 v1 (mapGet_of_mem h.keysNodup hy)).2.2
      rw [HasKey_unique h1 h2]
    · exact List.Nodup.of_map _ h.keysNodup
  rw [List.perm_ext_iff_of_nodup hnd h.nodup]
  intro a
  constructor
  · intro ha
    obtain ⟨⟨k, v⟩, hkv, e⟩ := List.mem_map.mp ha
    have e2 : v = a := e
    subst e2
    exact (h.keyed k v (mapGet_of_mem h.keysNodup hkv)).2.1
  · intro ha
    obtain ⟨K, hK⟩ := h.covered a ha
    exact List.mem_map.mpr ⟨(K, a), mem_of_mapGet hK, rfl⟩

/-- C14. In every store `s` reachable from `NewPacketStore m` (any `m`, so in
particular `m ≥ 0`) by a sequence of `Add` and `Clear` calls: the pairing map has as many entries as the pair list has
pairs (which is the number of pairs `GetPairs` returns); every pair of the list is the
value of the map under exactly one key; every map entry points to a pair of the list,
under a non-empty key which is the PairKey of every leg stored in that pair (so both
legs share it); the pairs of the list are pairwise distinct, and distinct pairs have
distinct keys. -/
theorem map_list_consistent (m : Int) (ops : List Op) (s : PacketStore)
    (hs : runOps (NewPacketStore m) ops = some s) :
    mapLen s.pairs = s.pairList.length ∧
    (GetPairs s).length = mapLen s.pairs ∧
    (∀ a ∈ s.pairList, ∃! K, mapGet s.pairs K = some a) ∧
    (∀ K a, mapGet s.pairs K = some a →
      a ∈ s.pairList ∧ K ≠ "" ∧ legs (deref s.heap a) ≠ [] ∧
      ∀ q ∈ legs (deref s.heap a), q.PairKey = K) ∧
    s.pairList.Nodup ∧
    (∀ Ka Kb a b, mapGet s.pairs Ka = some a → mapGet s.pairs Kb = some b →
      a ≠ b → Ka ≠ Kb) := by
  obtain ⟨hinv, -⟩ := PairInv_of_Reachable ⟨m, ops, hs⟩
  have hlen : mapLen s.pairs = s.pairList.length := by
    rw [mapLen_of_nodup hinv.keysNodup, ← (PairInv_values_perm hinv).length_eq,
      List.length_map]
  refine ⟨hlen, ?_, ?_, ?_, hinv.nodup, ?_⟩
  · unfold GetPairs
    rw [List.length_reverse, List.length_map, hlen]
  · intro a ha
    obtain ⟨K, hK⟩ := hinv.covered a ha
    refine ⟨K, hK, ?_⟩
    intro K' hK'
    exact HasKey_unique (hinv.keyed K' a hK').2.2 (hinv.keyed K a hK).2.2
  · intro K a hK
    obtain ⟨h1, h2, h3⟩ := hinv.keyed K a hK
    exact ⟨h2, h1, h3.1, h3.2⟩
  · intro Ka Kb a b ha hb hab hK
    apply hab
    rw [hK, hb] at ha
    exact (Option.some.inj ha).symm

/-- Witness of C14: the store of size one holding the pair of `k1`. -/
theorem map_list_consistent_witness :
    runOps (NewPacketStore 1) [Op.add sampleRequest] = some storeAfterFirst ∧
    mapLen storeAfterFirst.pairs = storeAfterFirst.pairList.length ∧
    (GetPairs storeAfterFirst).length = mapLen storeAfterFirst.pairs ∧
    (∀ a ∈ storeAfterFirst.pairList, ∃! K, mapGet storeAfterFirst.pairs K = some a) ∧
    (∀ K a, mapGet storeAfterFirst.pairs K = some a →
      a ∈ storeAfterFirst.pairList ∧ K ≠ "" ∧ legs (deref storeAfterFirst.heap a) ≠ [] ∧
      ∀ q ∈ legs (deref storeAfterFirst.heap a), q.PairKey = K) ∧
    storeAfterFirst.pairList.Nodup ∧
    (∀ Ka Kb a b, mapGet storeAfterFirst.pairs Ka = some a →
      mapGet storeAfterFirst.pairs Kb = some b → a ≠ b → Ka ≠ Kb) :=
  ⟨by decide,
    map_list_consistent 1 [Op.add sampleRequest] storeAfterFirst (by decide)⟩


/-! ## C15: empty PairKey -/

/-- C15. For every reachable store `s` and every message `p` with an empty PairKey:
lines 74-101 of `Add` assign the next ID, append the stamped message to the flat
history and touch nothing else; `Add` returns exactly when `maxSize ≥ 0` (with a
negative `maxSize` the history trim panics, for every message); and when it returns,
the result has the next `nextID`, the trimmed history (whose newest entry is the stamped
message when `maxSize > 0`), and the same pairing map, pair list, pairs, `nextPair` and
`GetPairs` as before: no pair is created or modified. -/
theorem empty_key_frame (s : PacketStore) (p : CapturedPacket) (hs : Reachable s)
    (hk : p.PairKey = "") :
    tracked s p =
      { s with nextID := s.nextID + 1, packets := s.packets ++ [{ p with ID := s.nextID }] } ∧
    ((Add s p).isSome ↔ 0 ≤ s.maxSize) ∧
    (∀ t, Add s p = some t →
      t.nextID = s.nextID + 1 ∧
      t.packets = lastN s.maxSize.toNat (s.packets ++ [{ p with ID := s.nextID }]) ∧
      (0 < s.maxSize → (GetAll t).head? = some { p with ID := s.nextID }) ∧
      t.pairs = s.pairs ∧ t.pairList = s.pairList ∧ t.heap = s.heap ∧
      t.nextPair = s.nextPair ∧ t.maxSize = s.maxSize ∧
      GetPairs t = GetPairs s) := by
  obtain ⟨-, hbnd⟩ := PairInv_of_Reachable hs
  refine ⟨tracked_of_empty s p hk, ?_, ?_⟩
  · by_cases hm : 0 ≤ s.maxSize
    · rw [Add_of_nonneg s p hm]
      simp only [Option.isSome_some, true_iff]
      exact hm
    · rw [Add_of_neg s p (by omega)]
      simp only [Option.isSome_none, Bool.false_eq_true, false_iff]
      exact hm
  · intro t ht
    obtain ⟨hm, -⟩ := Add_some ht
    have e := Add_empty s p hm hk hbnd
    rw [ht] at e
    have e2 := Option.some.inj e
    subst e2
    refine ⟨rfl, rfl, ?_, rfl, rfl, rfl, rfl, rfl, rfl⟩
    intro hpos
    show (lastN s.maxSize.toNat (s.packets ++ [stamped s p])).reverse.head? = _
    rw [lastN_append_singleton _ (by omega)]
    simp [stamped_eq]

/-- Witness of C15: a message without PairKey on the store holding the pair of `k1`. -/
theorem empty_key_frame_witness :
    Reachable storeAfterFirst ∧ sampleNoKey.PairKey = "" ∧
    tracked storeAfterFirst sampleNoKey =
      { storeAfterFirst with
        nextID := storeAfterFirst.nextID + 1
        packets := storeAfterFirst.packets ++ [{ sampleNoKey with ID := storeAfterFirst.nextID }] } ∧
    ((Add storeAfterFirst sampleNoKey).isSome ↔ 0 ≤ storeAfterFirst.maxSize) ∧
    (∀ t, Add storeAfterFirst sampleNoKey = some t →
      t.nextID = storeAfterFirst.nextID + 1 ∧
      t.packets = lastN storeAfterFirst.maxSize.toNat
        (storeAfterFirst.packets ++ [{ sampleNoKey with ID := storeAfterFirst.nextID }]) ∧
      (0 < storeAfterFirst.maxSize →
        (GetAll t).head? = some { sampleNoKey with ID := storeAfterFirst.nextID }) ∧
      t.pairs = storeAfterFirst.pairs ∧ t.pairList = storeAfterFirst.pairList ∧
      t.heap = storeAfterFirst.heap ∧
      t.nextPair = storeAfterFirst.nextPair ∧ t.maxSize = storeAfterFirst.maxSize ∧
      GetPairs t = GetPairs storeAfterFirst) :=
  ⟨⟨1, [Op.add sampleRequest], by decide⟩, rfl,
    empty_key_frame storeAfterFirst sampleNoKey ⟨1, [Op.add sampleRequest], by decide⟩ rfl⟩


/-! ## C11: framing completeness -/

/-- Evaluation of the loop at the failing input of the framing claim.  The stream is a
request with `Content-Length: 2` and a two-byte body, followed immediately by a second
request, and the stream delivers both in one `Read`.  The loop processes one message (the
first, with body `hi`) and returns at end of input: the bytes of the second message were
pulled into the temporary reader of the first parse and dropped with it.  For comparison,
when the stream delivers the two messages in two `Read`s, split between them, both are
processed. -/
theorem framing_completeness_fails :
    run (bufFlow parseByContentLength parseByContentLength) 3 oneChunk =
      ([Event.logRequest (ascii "POST /a HTTP/1.1\r\nContent-Length: 2\r\n\r\n") (ascii "hi")],
        true, { chunks := [], buffered := [] }) ∧
    messagesLogged (run (bufFlow parseByContentLength parseByContentLength) 3 oneChunk).1 = 1 ∧
    run (bufFlow parseByContentLength parseByContentLength) 3 twoChunks =
      ([Event.logRequest (ascii "POST /a HTTP/1.1\r\nContent-Length: 2\r\n\r\n") (ascii "hi"),
        Event.logRequest (ascii "GET /b HTTP/1.1\r\n\r\n") []],
        true, { chunks := [], buffered := [] }) := by
  decide


theorem ascii_crlf : ascii "\r\n" = [13, 10] := by
  decide

theorem splitLine_crlf (line rest : Bytes) (hnl : (10 : UInt8) ∉ line) :
    splitLine (line ++ [13, 10] ++ rest) = some (line ++ [13], rest) := by
  induction line with
  | nil =>
    show splitLine (13 :: 10 :: rest) = _
    rw [splitLine, if_neg (by decide), splitLine, if_pos rfl]
    rfl
  | cons b line ih =>
    have hb : ¬ b = 10 := fun e => hnl (e ▸ List.mem_cons_self _ _)
    have hrest : (10 : UInt8) ∉ line := fun h => hnl (List.mem_cons_of_mem _ h)
    show splitLine (b :: (line ++ [13, 10] ++ rest)) = _
    rw [splitLine, if_neg hb, ih hrest]
    rfl

theorem dropCR_append_CR (line : Bytes) : dropCR (line ++ [13]) = line := by
  unfold dropCR
  rw [List.getLast?_append, if_pos (by rfl), List.dropLast_concat]

theorem splitLine_nil : splitLine [] = none := rfl

theorem readUnderlying_nil (n : Nat) : readUnderlying n [] = (none, []) := rfl

theorem bufRead_drained (n : Nat) :
    bufRead n { chunks := [], buffered := [] } = (none, { chunks := [], buffered := [] }) := by
  unfold bufRead
  rw [if_neg (by simp)]
  split <;> rfl

/-- Once `buf` holds nothing and the stream is at its end, a parse leaves it so. -/
theorem parseLoop_drained {M : Type} (parse : Bytes → Bool → ParseStep M) (fuel : Nat)
    (inner : Bytes) :
    ∃ res, parseLoop parse fuel inner { chunks := [], buffered := [] } =
      (res, { chunks := [], buffered := [] }) := by
  cases fuel with
  | zero => exact ⟨_, rfl⟩
  | succ fuel =>
    rw [parseLoop]
    cases parse inner false with
    | done m body => exact ⟨_, rfl⟩
    | failed msg => exact ⟨_, rfl⟩
    | needMore head =>
      simp only
      split
      · exact ⟨_, rfl⟩
      · rw [bufRead_drained]
        simp only
        cases parse inner true with
        | done m body => exact ⟨_, rfl⟩
        | failed msg => exact ⟨_, rfl⟩
        | needMore head2 =>
          cases head2 with
          | none => exact ⟨_, rfl⟩
          | some m => exact ⟨_, rfl⟩

/-- A parse that needs more than the re-attached line pulls everything `buf` holds,
when that fits the temporary reader's buffer: `buf` is left empty. -/
theorem parseLoop_pulls_all {M : Type} (parse : Bytes → Bool → ParseStep M) (fuel : Nat)
    (inner rest : Bytes) (hsize : inner.length + rest.length ≤ bufSize)
    (hmore : ∃ head, parse inner false = ParseStep.needMore head) :
    ∃ res, parseLoop parse (fuel + 1) inner { chunks := [], buffered := rest } =
      (res, { chunks := [], buffered := [] }) := by
  obtain ⟨head, hhead⟩ := hmore
  rw [parseLoop, hhead]
  simp only
  by_cases hfull : bufSize ≤ inner.length
  · rw [if_pos hfull]
    have hrest : rest = [] := List.length_eq_zero.mp (by omega)
    rw [hrest]
    exact ⟨_, rfl⟩
  · rw [if_neg hfull]
    by_cases hrest : rest = []
    · rw [hrest, bufRead_drained]
      simp only
      cases parse inner true with
      | done m body => exact ⟨_, rfl⟩
      | failed msg => exact ⟨_, rfl⟩
      | needMore head2 =>
        cases head2 with
        | none => exact ⟨_, rfl⟩
        | some m => exact ⟨_, rfl⟩
    · have hread : bufRead (bufSize - inner.length) { chunks := [], buffered := rest } =
          (some rest, { chunks := [], buffered := [] }) := by
        have hn : rest.length ≤ bufSize - inner.length := by omega
        unfold bufRead
        show (if rest ≠ [] then
            (some (rest.take (bufSize - inner.length)),
              ({ chunks := [], buffered := rest.drop (bufSize - inner.length) } : BufReader))
          else _) = _
        rw [if_pos hrest, List.take_of_length_le hn, List.drop_of_length_le hn]
      rw [hread]
      exact parseLoop_drained parse fuel (inner ++ rest)

theorem readLine_single_chunk (line rest : Bytes) (hnl : (10 : UInt8) ∉ line)
    (hsize : (line ++ [13, 10] ++ rest).length ≤ bufSize) :
    readLineLoop (streamSize [line ++ [13, 10] ++ rest] + 1)
        { chunks := [line ++ [13, 10] ++ rest], buffered := [] } =
      (ReadResult.line line, { chunks := [], buffered := rest }) := by
  have hfuel : streamSize [line ++ [13, 10] ++ rest] + 1 =
      ((line ++ [13, 10] ++ rest).length + 0) + 1 + 1 := by
    unfold streamSize
    simp only [List.length_singleton, List.map_cons, List.map_nil, List.sum_cons, List.sum_nil]
    omega
  rw [hfuel, readLineLoop]
  simp only [splitLine_nil, List.length_nil]
  rw [if_neg (by decide)]
  have hru : readUnderlying (bufSize - 0) [line ++ [13, 10] ++ rest] =
      (some (line ++ [13, 10] ++ rest), []) := by
    have hle : (line ++ [13, 10] ++ rest).length ≤ bufSize - 0 := by
      rw [Nat.sub_zero]
      exact hsize
    rw [readUnderlying, if_pos hle]
  rw [hru]
  simp only [List.nil_append]
  rw [readLineLoop, splitLine_crlf line rest hnl]
  simp only [dropCR_append_CR]

theorem readLine_drained :
    readLineLoop (streamSize [] + 1) { chunks := [], buffered := [] } =
      (ReadResult.eof, { chunks := [], buffered := [] }) := by
  decide


theorem iteration_drained {M : Type} (parseReq parseResp : Bytes → Bool → ParseStep M) :
    iteration (bufFlow parseReq parseResp) { chunks := [], buffered := [] } =
      ([], false, { chunks := [], buffered := [] }) := by
  unfold iteration
  have h : (bufFlow parseReq parseResp).ReadLine { chunks := [], buffered := [] } =
      (ReadResult.eof, { chunks := [], buffered := [] }) := readLine_drained
  rw [h]

theorem run_two_passes {σ M : Type} (F : Flow σ M) (st st1 st2 : σ) (evs : List (Event M))
    (h1 : iteration F st = (evs, true, st1)) (h2 : iteration F st1 = ([], false, st2))
    (fuel : Nat) : run F (fuel + 2) st = (evs, true, st2) := by
  rw [run, h1]
  simp only
  rw [run, h2]
  simp only [List.append_nil]

/-- C11, in general.  Let the stream deliver, in one `Read` that fits the buffer, a
request line (`line`, classified as a request, followed by `\r\n`) and any further
bytes `rest`: the rest of a first message and, for instance, a whole second message.
Whatever the parser is, provided it needs more than the start line, the first pass of
the loop leaves `buf` empty with the stream at its end, so the second pass reads end of
input and `run` returns: at most one message is processed, and every byte of `rest`
the first parse did not use is lost. -/
theorem framing_single_chunk {M : Type} (parseReq parseResp : Bytes → Bool → ParseStep M)
    (line rest : Bytes) (hnl : (10 : UInt8) ∉ line) (hreq : isHTTPRequest line = true)
    (hsize : (line ++ ascii "\r\n" ++ rest).length ≤ bufSize)
    (hmore : ∃ head, parseReq (line ++ ascii "\r\n") false = ParseStep.needMore head) :
    ∃ evs,
      iteration (bufFlow parseReq parseResp)
          { chunks := [line ++ ascii "\r\n" ++ rest], buffered := [] } =
        (evs, true, { chunks := [], buffered := [] }) ∧
      messagesLogged evs ≤ 1 ∧
      ∀ fuel, run (bufFlow parseReq parseResp) (fuel + 2)
          { chunks := [line ++ ascii "\r\n" ++ rest], buffered := [] } =
        (evs, true, { chunks := [], buffered := [] }) := by
  have hread : (bufFlow parseReq parseResp).ReadLine
      { chunks := [line ++ ascii "\r\n" ++ rest], buffered := [] } =
      (ReadResult.line line, { chunks := [], buffered := rest }) := by
    rw [ascii_crlf] at hsize ⊢
    exact readLine_single_chunk line rest hnl hsize
  have hlen : (line ++ ascii "\r\n").length + rest.length ≤ bufSize := by
    rw [← List.length_append]
    exact hsize
  obtain ⟨res, hres⟩ := parseLoop_pulls_all parseReq
    (2 * streamSize [] + rest.length + 1) (line ++ ascii "\r\n") rest hlen hmore
  have hparse : (bufFlow parseReq parseResp).ReadRequest (line ++ ascii "\r\n")
      { chunks := [], buffered := rest } = (res, { chunks := [], buffered := [] }) := hres
  have hit : ∃ evs, iteration (bufFlow parseReq parseResp)
      { chunks := [line ++ ascii "\r\n" ++ rest], buffered := [] } =
      (evs, true, { chunks := [], buffered := [] }) ∧ messagesLogged evs ≤ 1 := by
    unfold iteration
    rw [hread]
    simp only [hreq, if_true]
    rw [hparse]
    cases res with
    | failed msg => exact ⟨_, rfl, Nat.zero_le _⟩
    | parsed m body =>
      cases body with
      | ok bodyBytes => exact ⟨_, rfl, Nat.le_refl _⟩
      | failed msg => exact ⟨_, rfl, Nat.le_refl _⟩
  obtain ⟨evs, hevs, hcount⟩ := hit
  exact ⟨evs, hevs, hcount,
    run_two_passes _ _ _ _ evs hevs (iteration_drained parseReq parseResp)⟩

/-- Witness of C11 (general form): the two messages of the failing input in one chunk;
here the one message processed is the first, with its two-byte body. -/
theorem framing_single_chunk_witness :
    (10 : UInt8) ∉ ascii "POST /a HTTP/1.1" ∧
    isHTTPRequest (ascii "POST /a HTTP/1.1") = true ∧
    (ascii "POST /a HTTP/1.1" ++ ascii "\r\n" ++
      (ascii "Content-Length: 2\r\n\r\nhi" ++ secondMessage)).length ≤ bufSize ∧
    (∃ head, parseByContentLength (ascii "POST /a HTTP/1.1" ++ ascii "\r\n") false =
      ParseStep.needMore head) ∧
    ∃ evs,
      iteration (bufFlow parseByContentLength parseByContentLength)
          { chunks := [ascii "POST /a HTTP/1.1" ++ ascii "\r\n" ++
              (ascii "Content-Length: 2\r\n\r\nhi" ++ secondMessage)], buffered := [] } =
        (evs, true, { chunks := [], buffered := [] }) ∧
      messagesLogged evs ≤ 1 ∧
      ∀ fuel, run (bufFlow parseByContentLength parseByContentLength) (fuel + 2)
          { chunks := [ascii "POST /a HTTP/1.1" ++ ascii "\r\n" ++
              (ascii "Content-Length: 2\r\n\r\nhi" ++ secondMessage)], buffered := [] } =
        (evs, true, { chunks := [], buffered := [] }) :=
  ⟨by decide, by decide, by decide, ⟨none, rfl⟩,
    framing_single_chunk parseByContentLength parseByContentLength
      (ascii "POST /a HTTP/1.1") (ascii "Content-Length: 2\r\n\r\nhi" ++ secondMessage)
      (by decide) (by decide) (by decide) ⟨none, rfl⟩⟩

end HttpInspector
